import Mathlib

/-!
Verification of the phalanx workflow-engine core against its specification.

The definitions below are a shallow embedding of the TypeScript sources:

* `DAGValidator.getExecutableNodes` (validators/dag.ts)
* the scheduling loop of `WorkflowExecutor.executeWorkflow` (engine/executor.ts)
* `NodeExecutor.resolveValue` and `NodeExecutor.executeWithRetry` (executors/base.ts)
* `ToolNodeExecutor.execute` (executors/tool.ts)
* `HumanNodeExecutor` (executors/human.ts) and `WorkflowExecutor.cancel`
* the pending-request table of `MCPClient` (mcp-client/src/client.ts)
* `serializeContext` / `deserializeContext` (workflow-engine/src/index.ts)

JavaScript runtime values are modelled by `JValue`; machine maps
(`Map<string, v>`, plain objects) are modelled by association lists in
insertion order.  Numbers are modelled as integers (the sources never rely
on non-integral numbers in the verified paths).
-/

/-- JavaScript runtime value, restricted to data shapes the engine handles:
strings, (integer) numbers, booleans, `null`, `undefined`, arrays and
plain objects (association lists in insertion order). -/
inductive JValue where
  | str (s : String)
  | num (n : Int)
  | bool (b : Bool)
  | null
  | undef
  | arr (xs : List JValue)
  | obj (fs : List (String × JValue))
deriving Repr

/-- Association-list lookup, first binding wins (JS object / Map lookup). -/
def alookup (fs : List (String × JValue)) (k : String) : Option JValue :=
  match fs with
  | [] => none
  | (k1, v) :: t => if k1 = k then some v else alookup t k

/-- JavaScript truthiness of a `JValue` (`Boolean(v)`).  Empty arrays and
empty objects are truthy; `0`, `""`, `false`, `null`, `undefined` are falsy. -/
def JValue.truthy : JValue → Bool
  | .str s => !(s = "")
  | .num n => !(n = 0)
  | .bool b => b
  | .null => false
  | .undef => false
  | .arr _ => true
  | .obj _ => true

mutual

/-- JavaScript default string conversion `String(v)`. -/
def JValue.toJsString : JValue → String
  | .str s => s
  | .num n => toString n
  | .bool b => if b then "true" else "false"
  | .null => "null"
  | .undef => "undefined"
  | .arr xs => JValue.arrJoin xs
  | .obj _ => "[object Object]"
  termination_by structural v => v

/-- Array `toString`: elements joined with commas, `null`/`undefined`
elements rendered as the empty string. -/
def JValue.arrJoin : List JValue → String
  | [] => ""
  | [.null] => ""
  | [.undef] => ""
  | [x] => JValue.toJsString x
  | .null :: y :: t => "," ++ JValue.arrJoin (y :: t)
  | .undef :: y :: t => "," ++ JValue.arrJoin (y :: t)
  | x :: y :: t => JValue.toJsString x ++ "," ++ JValue.arrJoin (y :: t)
  termination_by structural l => l

end

/-! ## Data model: workflow nodes (packages/schemas, workflow-engine/types.ts) -/

/-- Workflow node: `{ id, type, config, dependencies? }`. -/
structure WorkflowNode where
  id : String
  type : String
  config : JValue
  dependencies : Option (List String)
deriving Repr

/-- Workflow: id plus ordered node list (order informational only). -/
structure Workflow where
  id : String
  nodes : List WorkflowNode
deriving Repr

namespace DAGValidator

/-- Shallow embedding of `DAGValidator.getExecutableNodes`: nodes not yet
completed whose every dependency (defaulting to `[]`) is completed. -/
def getExecutableNodes (workflow : Workflow) (completedNodeIds : Finset String) :
    List String :=
  (workflow.nodes.filter (fun node =>
      if node.id ∈ completedNodeIds then false
      else (node.dependencies.getD []).all (fun depId => depId ∈ completedNodeIds))).map
    (fun node => node.id)

end DAGValidator

/-! ## Scheduler state machine (engine/executor.ts, `executeWorkflow` / `executeNode`)

The scheduling loop owns the sets `runningNodes`, `completedNodes`,
`failedNodes` and the flag `cancelRequested`.  Every mutation the source
performs on `runningNodes` is one of the steps below:

* a dispatch wave `nodesToExecute.slice(0, maxConcurrent - runningNodes.size)`
  adds candidate ids (executable, not running, not failed) to `running` —
  at most `maxConcurrent - |running|` of them (the sequential per-node adds
  inside one wave are dispatches of singleton sub-waves, which the same
  step covers);
* a node finishing removes its id from `running` and adds it to
  `completed` or `failed`;
* a node without a registered executor is added to `failed` only;
* `cancel()` sets the flag.
-/

/-- Scheduler state: the mutable sets of `WorkflowExecutor`. -/
structure SchedState where
  running : Finset String
  completed : Finset String
  failed : Finset String
  cancelRequested : Bool

/-- Effective concurrency bound `this.config.maxConcurrentNodes || 5`
(JavaScript `||`: unset — and `0` — fall back to 5). -/
def effectiveMaxConcurrent : Option Nat → Nat
  | none => 5
  | some n => if n = 0 then 5 else n

/-- One scheduler transition of `executeWorkflow` / `executeNode`. -/
inductive SchedStep (w : Workflow) (maxC : Nat) : SchedState → SchedState → Prop
  | dispatch (s : SchedState) (wave : Finset String)
      (hcand : ∀ n ∈ wave, n ∈ DAGValidator.getExecutableNodes w s.completed ∧
                 n ∉ s.running ∧ n ∉ s.failed)
      (hcard : wave.card ≤ maxC - s.running.card) :
      SchedStep w maxC s { s with running := s.running ∪ wave }
  | completeNode (s : SchedState) (n : String) (hn : n ∈ s.running) :
      SchedStep w maxC s
        { s with running := s.running.erase n, completed := insert n s.completed }
  | failNode (s : SchedState) (n : String) (hn : n ∈ s.running) :
      SchedStep w maxC s
        { s with running := s.running.erase n, failed := insert n s.failed }
  | failMissingExecutor (s : SchedState) (n : String) :
      SchedStep w maxC s { s with failed := insert n s.failed }
  | requestCancel (s : SchedState) :
      SchedStep w maxC s { s with cancelRequested := true }

/-- States reachable by the scheduling loop from a given start state. -/
def SchedReachable (w : Workflow) (maxC : Nat) : SchedState → SchedState → Prop :=
  Relation.ReflTransGen (SchedStep w maxC)

theorem schedStep_preserves_bound {w : Workflow} {maxC : Nat} {s t : SchedState}
    (hstep : SchedStep w maxC s t) (hs : s.running.card ≤ maxC) :
    t.running.card ≤ maxC := by
  cases hstep with
  | dispatch wave hcand hcard =>
      calc (s.running ∪ wave).card ≤ s.running.card + wave.card :=
            Finset.card_union_le _ _
        _ ≤ s.running.card + (maxC - s.running.card) := by omega
        _ ≤ maxC := by omega
  | completeNode n hn =>
      exact le_trans (Finset.card_erase_le) hs
  | failNode n hn =>
      exact le_trans (Finset.card_erase_le) hs
  | failMissingExecutor n => exact hs
  | requestCancel => exact hs

theorem if_then_false_eq_true {P : Prop} [Decidable P] {b : Bool} :
    ((if P then false else b) = true) ↔ (¬ P ∧ b = true) := by
  split <;> simp_all

/-- C1: at every point of the scheduling loop of `WorkflowExecutor.execute`
and `resume`, the set of running nodes has size at most `maxConcurrent`
(`config.maxConcurrentNodes`, defaulting to 5 when unset): every dispatch
wave starts at most `maxConcurrent - |running|` candidates, so from any
start state with `running = ∅` the bound `|running| ≤ maxConcurrent` holds
in every reachable state. -/
theorem workflowExecutor_running_bounded :
    effectiveMaxConcurrent none = 5 ∧
    ∀ (cfg : Option Nat) (w : Workflow) (init s : SchedState),
      init.running = ∅ →
      SchedReachable w (effectiveMaxConcurrent cfg) init s →
      s.running.card ≤ effectiveMaxConcurrent cfg := by
  refine ⟨rfl, ?_⟩
  intro cfg w init s hinit hreach
  induction hreach with
  | refl => simp [hinit]
  | tail hsteps hstep ih => exact schedStep_preserves_bound hstep ih

/-- Witness for C1: a one-node workflow, one dispatch step from the empty
start state; the reached state satisfies the bound. -/
theorem workflowExecutor_running_bounded_witness :
    ({ running := (∅ : Finset String) ∪ {"a"}, completed := ∅, failed := ∅,
       cancelRequested := false } : SchedState).running.card ≤
      effectiveMaxConcurrent none := by
  refine workflowExecutor_running_bounded.2 none
    ⟨"w", [⟨"a", "tool", .null, none⟩]⟩
    { running := ∅, completed := ∅, failed := ∅, cancelRequested := false } _ rfl ?_
  exact Relation.ReflTransGen.single
    (SchedStep.dispatch _ {"a"} (by decide) (by decide))

/-- C2: `DAGValidator.getExecutableNodes w completed` returns exactly the
ids of nodes of `w` that are not in `completed` and whose every dependency
is in `completed`; in particular the result is disjoint from `completed`.
(The embedding is a pure function, so neither input is mutated.) -/
theorem getExecutableNodes_correct :
    ∀ (w : Workflow) (completed : Finset String) (nodeId : String),
      (nodeId ∈ DAGValidator.getExecutableNodes w completed ↔
        ∃ n, n ∈ w.nodes ∧ n.id = nodeId ∧ nodeId ∉ completed ∧
          ∀ d ∈ n.dependencies.getD [], d ∈ completed) ∧
      (nodeId ∈ DAGValidator.getExecutableNodes w completed → nodeId ∉ completed) := by
  intro w completed nodeId
  have hiff : nodeId ∈ DAGValidator.getExecutableNodes w completed ↔
      ∃ n, n ∈ w.nodes ∧ n.id = nodeId ∧ nodeId ∉ completed ∧
        ∀ d ∈ n.dependencies.getD [], d ∈ completed := by
    simp only [DAGValidator.getExecutableNodes, List.mem_map, List.mem_filter,
      if_then_false_eq_true, List.all_eq_true, decide_eq_true_eq]
    constructor
    · rintro ⟨n, ⟨hn, hnc, hdeps⟩, hid⟩
      exact ⟨n, hn, hid, hid ▸ hnc, hdeps⟩
    · rintro ⟨n, hn, hid, hnc, hdeps⟩
      exact ⟨n, ⟨hn, hid ▸ hnc, hdeps⟩, hid⟩
  refine ⟨hiff, ?_⟩
  intro hmem
  obtain ⟨n, _, _, hnc, _⟩ := hiff.mp hmem
  exact hnc

/-- Witness for C2: a two-node chain; with `a` completed, exactly `b` is
executable, and it is not in the completed set. -/
theorem getExecutableNodes_correct_witness :
    "b" ∈ DAGValidator.getExecutableNodes
        ⟨"w", [⟨"a", "tool", .null, none⟩, ⟨"b", "tool", .null, some ["a"]⟩]⟩
        {"a"} ∧
    "b" ∉ ({"a"} : Finset String) := by
  have h := getExecutableNodes_correct
    ⟨"w", [⟨"a", "tool", .null, none⟩, ⟨"b", "tool", .null, some ["a"]⟩]⟩ {"a"} "b"
  have hmem : "b" ∈ DAGValidator.getExecutableNodes
      ⟨"w", [⟨"a", "tool", .null, none⟩, ⟨"b", "tool", .null, some ["a"]⟩]⟩ {"a"} :=
    h.1.mpr ⟨⟨"b", "tool", .null, some ["a"]⟩, by simp, rfl, by decide, by decide⟩
  exact ⟨hmem, h.2 hmem⟩

/-! ## Retry wrapper (executors/base.ts, `NodeExecutor.executeWithRetry`)

The source loops `for (attempt = 0; attempt <= maxRetries; attempt++)`,
calling `fn` once per iteration; on a throw with `attempt < maxRetries` it
sleeps `Math.pow(2, attempt) * 1000` milliseconds and retries; when the
final attempt throws it returns `{output: null, error: lastError}`.
An attempt is modelled as `Except String NodeExecutionResult` (`.error` =
the function threw); the attempt outcomes are given as a sequence indexed
by attempt number.  `retryGo fn attempt remaining` is the loop from
`attempt` with `remaining = maxRetries - attempt` iterations left. -/

/-- Node execution result `{output, error?, metadata?}` with `Error`
modelled by its message. -/
structure NodeExecutionResult where
  output : JValue
  error : Option String
  metadata : Option JValue
deriving Repr

/-- Observable outcome of `executeWithRetry`: how many times `fn` was
invoked, the backoff delays (milliseconds) slept between consecutive
attempts, and the returned result. -/
structure RetryOutcome where
  calls : Nat
  delays : List Nat
  result : NodeExecutionResult
deriving Repr

/-- Retry loop from attempt number `attempt` with `remaining` further
iterations allowed after the current one. -/
def retryGo (fn : Nat → Except String NodeExecutionResult) (attempt : Nat) :
    Nat → RetryOutcome
  | 0 =>
      match fn attempt with
      | .ok r => ⟨1, [], r⟩
      | .error e => ⟨1, [], ⟨.null, some e, none⟩⟩
  | remaining + 1 =>
      match fn attempt with
      | .ok r => ⟨1, [], r⟩
      | .error _ =>
          let rest := retryGo fn (attempt + 1) remaining
          ⟨rest.calls + 1, 2 ^ attempt * 1000 :: rest.delays, rest.result⟩

/-- Shallow embedding of `NodeExecutor.executeWithRetry(fn, maxRetries)`. -/
def executeWithRetry (fn : Nat → Except String NodeExecutionResult)
    (maxRetries : Nat) : RetryOutcome :=
  retryGo fn 0 maxRetries

theorem retryGo_all_fail (fn : Nat → Except String NodeExecutionResult)
    (err : Nat → String) (hfail : ∀ k, fn k = .error (err k)) :
    ∀ (remaining attempt : Nat),
      retryGo fn attempt remaining =
        ⟨remaining + 1,
         (List.range remaining).map (fun i => 2 ^ (attempt + i) * 1000),
         ⟨.null, some (err (attempt + remaining)), none⟩⟩ := by
  intro remaining
  induction remaining with
  | zero => intro attempt; simp [retryGo, hfail attempt]
  | succ rem ih =>
      intro attempt
      simp only [retryGo, hfail attempt, ih (attempt + 1)]
      rw [List.range_succ_eq_map, List.map_cons, List.map_map]
      have hmap : ((List.range rem).map (fun i => 2 ^ (attempt + (i + 1)) * 1000)) =
          ((List.range rem).map (fun i => 2 ^ (attempt + 1 + i) * 1000)) :=
        List.map_congr_left (fun i _ => by
          rw [show attempt + (i + 1) = attempt + 1 + i from by omega])
      simp only [Function.comp_def, Nat.succ_eq_add_one, hmap, Nat.add_zero, pow_zero]
      rw [show attempt + (rem + 1) = attempt + 1 + rem from by omega]

theorem retryGo_calls_le (fn : Nat → Except String NodeExecutionResult) :
    ∀ (remaining attempt : Nat), (retryGo fn attempt remaining).calls ≤ remaining + 1 := by
  intro remaining
  induction remaining with
  | zero =>
      intro attempt
      cases h : fn attempt <;> simp [retryGo, h]
  | succ rem ih =>
      intro attempt
      cases h : fn attempt with
      | ok r => simp [retryGo, h]
      | error e =>
          simp only [retryGo, h]
          have := ih (attempt + 1)
          omega

/-- C3 counterexample: with the tool executor's retry argument 2 the
wrapper calls an always-failing function 3 times (not at most 2), and with
the LLM executor's argument 3 it calls 4 times (not at most 3). -/
theorem executeWithRetry_attempts_counterexample :
    (executeWithRetry (fun _ => .error "boom") 2).calls = 3 ∧
    ¬ (executeWithRetry (fun _ => .error "boom") 2).calls ≤ 2 ∧
    (executeWithRetry (fun _ => .error "boom") 3).calls = 4 := by
  refine ⟨rfl, by decide, rfl⟩

/-- C3 (amended): when the wrapped function fails on every call, the retry
wrapper invokes it exactly `maxRetries + 1` times — the second argument is
3 for the LLM executor and 2 for the tool executor, so at most 4 and 3
invocations respectively — sleeping `2 ^ attempt * 1000` ms between
consecutive attempts, and on exhaustion returns `{output: null, error:
lastError}` carrying the error of the final attempt. -/
theorem executeWithRetry_exhaustion :
    ∀ (fn : Nat → Except String NodeExecutionResult) (err : Nat → String)
      (maxRetries : Nat),
      (∀ k, fn k = .error (err k)) →
      executeWithRetry fn maxRetries =
        ⟨maxRetries + 1,
         (List.range maxRetries).map (fun a => 2 ^ a * 1000),
         ⟨.null, some (err maxRetries), none⟩⟩ ∧
      (∀ gn : Nat → Except String NodeExecutionResult,
        (executeWithRetry gn 3).calls ≤ 3 + 1 ∧
        (executeWithRetry gn 2).calls ≤ 2 + 1) := by
  intro fn err maxRetries hfail
  constructor
  · have h := retryGo_all_fail fn err hfail maxRetries 0
    simpa [executeWithRetry] using h
  · intro gn
    exact ⟨retryGo_calls_le gn 3 0, retryGo_calls_le gn 2 0⟩

/-- Witness for C3 (amended): an always-failing function with the tool
executor's retry argument 2 gives 3 calls, delays 1 s then 2 s, and the
final error. -/
theorem executeWithRetry_exhaustion_witness :
    executeWithRetry (fun _ => .error "boom") 2 =
      ⟨3, [1000, 2000], ⟨.null, some "boom", none⟩⟩ := by
  have h := (executeWithRetry_exhaustion (fun _ => .error "boom")
    (fun _ => "boom") 2 (fun _ => rfl)).1
  simpa using h

/-! ## Tool executor (executors/tool.ts, `ToolNodeExecutor.execute`)

One attempt POSTs to the tool runner.  The collaborator interaction has
three outcomes: a successful HTTP response carrying a JSON body (the
`{exitCode, stdout, stderr, duration}` record), a non-ok HTTP response
(the code throws `Tool Runner error (status): text`), or a network error
(fetch throws).  On a successful response the code merely logs when
`exitCode !== 0` and returns `{output: result, metadata: {exitCode,
duration}}` — a non-zero exit code is not an error and does not throw. -/

/-- Outcome of one `fetch` to the tool-runner collaborator. -/
inductive ToolRunnerResponse where
  | ok (body : JValue)
  | httpError (status : Nat) (text : String)
  | networkError (msg : String)

/-- Property access `v.k` returning `undefined` when absent (used for the
`metadata` fields `result.exitCode` / `result.duration`). -/
def jsField (v : JValue) (k : String) : JValue :=
  match v with
  | .obj fs => (alookup fs k).getD .undef
  | _ => JValue.undef

/-- Error message thrown for a non-ok HTTP response. -/
def toolRunnerErrorMsg (status : Nat) (text : String) : String :=
  "Tool Runner error (" ++ toString status ++ "): " ++ text

/-- One attempt of `ToolNodeExecutor.execute`'s inner function. -/
def toolAttempt : ToolRunnerResponse → Except String NodeExecutionResult
  | .ok body =>
      .ok { output := body, error := none,
            metadata := some (.obj
              [("exitCode", jsField body "exitCode"),
               ("duration", jsField body "duration")]) }
  | .httpError status text => .error (toolRunnerErrorMsg status text)
  | .networkError msg => .error msg

/-- The tool node execution: the inner attempt wrapped in
`executeWithRetry(fn, 2)`, with the collaborator's response to the k-th
attempt given by `responses k`. -/
def toolExecute (responses : Nat → ToolRunnerResponse) : RetryOutcome :=
  executeWithRetry (fun attempt => toolAttempt (responses attempt)) 2

/-- C7: a successful collaborator response with any exit code — zero or
not — completes the tool node on the first call with the response body as
output and no error (no retry); an HTTP-level or network failure on the
first attempt does trigger a retry. -/
theorem toolExecute_nonzero_exit_ok :
    ∀ (responses : Nat → ToolRunnerResponse) (body : JValue),
      (responses 0 = .ok body →
        toolExecute responses =
          ⟨1, [],
           { output := body, error := none,
             metadata := some (.obj
               [("exitCode", jsField body "exitCode"),
                ("duration", jsField body "duration")]) }⟩) ∧
      (∀ status text,
        responses 0 = .httpError status text →
        responses 1 = .ok body →
        toolExecute responses =
          ⟨2, [1000],
           { output := body, error := none,
             metadata := some (.obj
               [("exitCode", jsField body "exitCode"),
                ("duration", jsField body "duration")]) }⟩) := by
  intro responses body
  constructor
  · intro h0
    simp [toolExecute, executeWithRetry, retryGo, h0, toolAttempt]
  · intro status text h0 h1
    simp [toolExecute, executeWithRetry, retryGo, h0, h1, toolAttempt]

/-- Witness for C7: a body with exit code 7 succeeds on the first attempt;
after one transport failure the same body still succeeds on the second. -/
theorem toolExecute_nonzero_exit_ok_witness :
    toolExecute (fun _ => .ok (.obj [("exitCode", .num 7), ("stdout", .str "out"),
        ("stderr", .str ""), ("duration", .num 12)])) =
      ⟨1, [],
       { output := .obj [("exitCode", .num 7), ("stdout", .str "out"),
           ("stderr", .str ""), ("duration", .num 12)],
         error := none,
         metadata := some (.obj [("exitCode", .num 7), ("duration", .num 12)]) }⟩ := by
  have h := (toolExecute_nonzero_exit_ok
    (fun _ => .ok (.obj [("exitCode", .num 7), ("stdout", .str "out"),
        ("stderr", .str ""), ("duration", .num 12)]))
    (.obj [("exitCode", .num 7), ("stdout", .str "out"),
        ("stderr", .str ""), ("duration", .num 12)])).1 rfl
  simpa [jsField, alookup] using h

/-! ## Human executor (executors/human.ts) and `WorkflowExecutor.cancel`

The human executor owns `pendingApprovals`, a map keyed by the string
`runId + ":" + nodeId`.  `execute` registers the key and suspends;
`approve` / `reject` resolve the suspended promise with an
`ApprovalResponse`, the configured timeout and `cancel` reject it; each of
those four paths also deletes the key.  `WorkflowExecutor.cancel()` sets
`cancelRequested` and then, for EVERY pending key, splits it at `:` and
calls the human executor's `cancel` — there is no filter on the run id.
JavaScript `key.split(':')` is modelled by `jsSplit`. -/

/-- JS `String.prototype.split` with a single-character separator,
character-list version.  `"".split(c) = [""]`. -/
def splitCharList (sep : Char) : List Char → List (List Char)
  | [] => [[]]
  | c :: t =>
      match splitCharList sep t with
      | [] => [[c]]
      | h :: rest => if c = sep then [] :: h :: rest else (c :: h) :: rest

/-- JS `s.split(sep)` for a one-character separator. -/
def jsSplit (s : String) (sep : Char) : List String :=
  (splitCharList sep s.data).map (fun l => ⟨l⟩)

/-- Pending-approval table: the registered keys, in insertion order. -/
structure HumanState where
  pending : List String
deriving Repr

/-- Key of a pending approval: `` `${runId}:${nodeId}` ``. -/
def approvalKey (runId nodeId : String) : String :=
  runId ++ ":" ++ nodeId

/-- JS `pendingApprovals.has(key)`. -/
def HumanState.isPending (st : HumanState) (runId nodeId : String) : Bool :=
  decide (approvalKey runId nodeId ∈ st.pending)

/-- JS `pendingApprovals.delete(key)`. -/
def HumanState.remove (st : HumanState) (key : String) : HumanState :=
  ⟨st.pending.filter (fun k => decide (k ≠ key))⟩

/-- Registration performed by `HumanNodeExecutor.execute`
(`pendingApprovals.set(approvalKey, handlers)`). -/
def registerApproval (st : HumanState) (runId nodeId : String) : HumanState :=
  if approvalKey runId nodeId ∈ st.pending then st
  else ⟨st.pending ++ [approvalKey runId nodeId]⟩

/-- The `ApprovalResponse` record `{approved, approver, comment?, approvedAt}`
(`approvedAt` modelled as a timestamp number). -/
structure ApprovalResponse where
  approved : Bool
  approver : String
  comment : Option String
  approvedAt : Nat
deriving Repr

/-- How the suspended `execute` promise settles: resolved with a response,
or rejected with an error (timeout / cancellation). -/
inductive ApprovalResolution where
  | response (r : ApprovalResponse)
  | failed (err : String)
deriving Repr

namespace HumanNodeExecutor

/-- Shallow embedding of `approve`: on a pending key, clears the timeout,
resolves the promise with `{approved: true, approver, comment, approvedAt}`
and deletes the key; returns whether a pending entry was found. -/
def approve (st : HumanState) (runId nodeId approver : String)
    (comment : Option String) (now : Nat) :
    Bool × HumanState × Option ApprovalResolution :=
  let key := approvalKey runId nodeId
  if key ∈ st.pending then
    (true, st.remove key, some (.response ⟨true, approver, comment, now⟩))
  else (false, st, none)

/-- Shallow embedding of `reject`: as `approve` but resolves with
`approved: false`. -/
def reject (st : HumanState) (runId nodeId approver : String)
    (comment : Option String) (now : Nat) :
    Bool × HumanState × Option ApprovalResolution :=
  let key := approvalKey runId nodeId
  if key ∈ st.pending then
    (true, st.remove key, some (.response ⟨false, approver, comment, now⟩))
  else (false, st, none)

/-- Shallow embedding of `cancel`: on a pending key, rejects the promise
with `Error("Approval cancelled")` and deletes the key. -/
def cancel (st : HumanState) (runId nodeId : String) :
    Bool × HumanState × Option ApprovalResolution :=
  let key := approvalKey runId nodeId
  if key ∈ st.pending then
    (true, st.remove key, some (.failed "Approval cancelled"))
  else (false, st, none)

/-- The configured timeout firing inside `execute`: deletes the key and
rejects with `Error("Approval timeout after <ms>ms")`.  The timer exists
only while the key is pending (it is cleared by the other paths). -/
def fireTimeout (st : HumanState) (runId nodeId : String) (timeoutMs : Nat) :
    HumanState × Option ApprovalResolution :=
  let key := approvalKey runId nodeId
  if key ∈ st.pending then
    (st.remove key,
     some (.failed ("Approval timeout after " ++ toString timeoutMs ++ "ms")))
  else (st, none)

end HumanNodeExecutor

/-- Output object built by `execute` on an approved response. -/
def approvedOutput (r : ApprovalResponse) : JValue :=
  .obj [("approved", .bool true), ("approver", .str r.approver),
        ("comment", match r.comment with | some c => .str c | none => .undef),
        ("approvedAt", .num r.approvedAt)]

/-- Error message built by `execute` on a rejected response:
`` `Approval rejected by ${approver}: ${comment || 'No comment'}` ``. -/
def rejectMsg (r : ApprovalResponse) : String :=
  "Approval rejected by " ++ r.approver ++ ": " ++
    (match r.comment with
     | some c => if c = "" then "No comment" else c
     | none => "No comment")

/-- How `HumanNodeExecutor.execute` maps the settled promise to its own
result: an approved response yields the output object, a rejection yields
a returned error result, a rejected promise (timeout / cancel) re-throws. -/
def humanSettle : ApprovalResolution → Except String NodeExecutionResult
  | .response r =>
      if r.approved then
        .ok { output := approvedOutput r, error := none,
              metadata := some (.obj [("approver", .str r.approver)]) }
      else
        .ok { output := .null, error := some (rejectMsg r), metadata := none }
  | .failed e => .error e

theorem isPending_remove (st : HumanState) (runId nodeId : String) :
    (st.remove (approvalKey runId nodeId)).isPending runId nodeId = false := by
  simp [HumanState.remove, HumanState.isPending, List.mem_filter]

theorem isPending_register (st : HumanState) (runId nodeId : String) :
    (registerApproval st runId nodeId).isPending runId nodeId = true := by
  unfold registerApproval
  split <;> simp_all [HumanState.isPending]

/-- C8: a human node registers a pending approval keyed by
`(runId, nodeId)` and settles in exactly one of four ways — approval
(output `{approved: true, approver, comment, approvedAt}`), rejection (an
error carrying the approver and the comment), the configured timeout
(`"Approval timeout"` error), or cancellation (`"Approval cancelled"`
error) — and in every one of these outcomes the pending entry for
`(runId, nodeId)` is removed. -/
theorem humanExecutor_outcomes :
    ∀ (st : HumanState) (runId nodeId approver : String)
      (comment : Option String) (now timeoutMs : Nat),
      ((registerApproval st runId nodeId).isPending runId nodeId = true) ∧
      (HumanNodeExecutor.approve (registerApproval st runId nodeId)
          runId nodeId approver comment now =
        (true, (registerApproval st runId nodeId).remove (approvalKey runId nodeId),
         some (.response ⟨true, approver, comment, now⟩))) ∧
      (HumanNodeExecutor.reject (registerApproval st runId nodeId)
          runId nodeId approver comment now =
        (true, (registerApproval st runId nodeId).remove (approvalKey runId nodeId),
         some (.response ⟨false, approver, comment, now⟩))) ∧
      (HumanNodeExecutor.cancel (registerApproval st runId nodeId) runId nodeId =
        (true, (registerApproval st runId nodeId).remove (approvalKey runId nodeId),
         some (.failed "Approval cancelled"))) ∧
      (HumanNodeExecutor.fireTimeout (registerApproval st runId nodeId)
          runId nodeId timeoutMs =
        ((registerApproval st runId nodeId).remove (approvalKey runId nodeId),
         some (.failed ("Approval timeout after " ++ toString timeoutMs ++ "ms")))) ∧
      (∀ st2 : HumanState,
        (st2.remove (approvalKey runId nodeId)).isPending runId nodeId = false) ∧
      (humanSettle (.response ⟨true, approver, comment, now⟩) =
        .ok { output := approvedOutput ⟨true, approver, comment, now⟩,
              error := none,
              metadata := some (.obj [("approver", .str approver)]) }) ∧
      (humanSettle (.response ⟨false, approver, comment, now⟩) =
        .ok { output := .null,
              error := some (rejectMsg ⟨false, approver, comment, now⟩),
              metadata := none }) ∧
      (∀ e, humanSettle (.failed e) = .error e) := by
  intro st runId nodeId approver comment now timeoutMs
  have hpend : approvalKey runId nodeId ∈ (registerApproval st runId nodeId).pending := by
    have := isPending_register st runId nodeId
    simpa [HumanState.isPending] using this
  refine ⟨isPending_register st runId nodeId, ?_, ?_, ?_, ?_,
    (fun st2 => isPending_remove st2 runId nodeId), rfl, rfl, (fun e => rfl)⟩
  · simp [HumanNodeExecutor.approve, hpend]
  · simp [HumanNodeExecutor.reject, hpend]
  · simp [HumanNodeExecutor.cancel, hpend]
  · simp [HumanNodeExecutor.fireTimeout, hpend]

/-- Destructuring `const [runId, nodeId] = key.split(':')` — a missing
second element is `undefined`, which the template literal inside the human
executor's `cancel` renders as `"undefined"`. -/
def splitKeyParts (key : String) : String × String :=
  let parts := jsSplit key ':'
  (parts.headD "", (parts.get? 1).getD "undefined")

/-- Shallow embedding of the approval-cancelling loop of
`WorkflowExecutor.cancel()`: iterate over a snapshot of ALL pending keys,
split each at `:`, and cancel it on the human executor. -/
def workflowCancelPending (st : HumanState) : HumanState :=
  st.pending.foldl
    (fun acc key => (HumanNodeExecutor.cancel acc
      (splitKeyParts key).1 (splitKeyParts key).2).2.1)
    st

/-- Shallow embedding of `WorkflowExecutor.cancel()`: set `cancelRequested`
and cancel the pending approvals. -/
def workflowExecutorCancel (sched : SchedState) (hum : HumanState) :
    SchedState × HumanState :=
  ({ sched with cancelRequested := true }, workflowCancelPending hum)

theorem cancel_wellFormed_key (acc : HumanState) (k : String)
    (hk : ∃ r n, jsSplit k ':' = [r, n] ∧ approvalKey r n = k) :
    (HumanNodeExecutor.cancel acc (splitKeyParts k).1 (splitKeyParts k).2).2.1.pending =
      acc.pending.filter (fun x => decide (x ≠ k)) := by
  obtain ⟨r, n, hsplit, hkey⟩ := hk
  have hparts : splitKeyParts k = (r, n) := by
    simp [splitKeyParts, hsplit]
  rw [hparts]
  unfold HumanNodeExecutor.cancel
  simp only [hkey]
  split
  · rfl
  · next hnot =>
      exact (List.filter_eq_self.mpr (fun a ha => by
        simp only [decide_eq_true_eq]
        rintro rfl
        exact hnot ha)).symm

theorem foldCancel_removes (L : List String) :
    ∀ acc : HumanState,
      (∀ k ∈ L, ∃ r n, jsSplit k ':' = [r, n] ∧ approvalKey r n = k) →
      (L.foldl (fun acc key => (HumanNodeExecutor.cancel acc
          (splitKeyParts key).1 (splitKeyParts key).2).2.1) acc).pending =
        acc.pending.filter (fun x => decide (x ∉ L)) := by
  induction L with
  | nil => intro acc _; simp
  | cons k L ih =>
      intro acc hwf
      rw [List.foldl_cons]
      rw [ih _ (fun x hx => hwf x (List.mem_cons_of_mem _ hx))]
      have hstep := cancel_wellFormed_key acc k (hwf k (List.mem_cons_self _ _))
      set acc1 := (HumanNodeExecutor.cancel acc
        (splitKeyParts k).1 (splitKeyParts k).2).2.1
      rw [hstep, List.filter_filter]
      apply List.filter_congr
      intro x _
      by_cases h1 : x = k <;> by_cases h2 : x ∈ L <;> simp [h1, h2]

/-- C9 counterexample: with pending approvals for two different runs,
`WorkflowExecutor.cancel()` removes BOTH — a pending approval whose key
carries a different run id does not remain pending. -/
theorem workflowExecutor_cancel_counterexample :
    (workflowExecutorCancel ⟨∅, ∅, ∅, false⟩
        ⟨["run1:n1", "run2:n2"]⟩).2.isPending "run2" "n2" = false := by
  decide

/-- C9 (amended): `WorkflowExecutor.cancel()` sets the `cancelRequested`
flag and then cancels EVERY pending approval of the human executor,
regardless of run id — for any pending table whose keys have the
well-formed shape `runId:nodeId`, nothing remains pending after
`cancel()`. -/
theorem workflowExecutor_cancel_cancels_all :
    ∀ (sched : SchedState) (hum : HumanState),
      (∀ k ∈ hum.pending, ∃ r n, jsSplit k ':' = [r, n] ∧ approvalKey r n = k) →
      (workflowExecutorCancel sched hum).1.cancelRequested = true ∧
      (workflowExecutorCancel sched hum).2.pending = [] := by
  intro sched hum hwf
  refine ⟨rfl, ?_⟩
  show (workflowCancelPending hum).pending = []
  unfold workflowCancelPending
  rw [foldCancel_removes hum.pending hum hwf]
  exact List.filter_eq_nil_iff.mpr (fun a ha => by simpa using ha)

/-- Witness for C9 (amended): cancelling with two well-formed pending keys
from different runs empties the table and sets the flag. -/
theorem workflowExecutor_cancel_cancels_all_witness :
    (workflowExecutorCancel ⟨∅, ∅, ∅, false⟩ ⟨["r1:a", "r2:b"]⟩).1.cancelRequested = true ∧
    (workflowExecutorCancel ⟨∅, ∅, ∅, false⟩ ⟨["r1:a", "r2:b"]⟩).2.pending = [] := by
  refine workflowExecutor_cancel_cancels_all ⟨∅, ∅, ∅, false⟩ ⟨["r1:a", "r2:b"]⟩ ?_
  intro k hk
  simp only [List.mem_cons, List.not_mem_nil, or_false] at hk
  rcases hk with rfl | rfl
  · exact ⟨"r1", "a", by decide, by decide⟩
  · exact ⟨"r2", "b", by decide, by decide⟩

/-! ## Protocol client pending-request table (mcp-client, `MCPClient`)

`request` registers a `PendingRequest` keyed by a fresh id and arms a
timeout (default `options.requestTimeout || 30000` ms); the table then
evolves by events: a correlated response resolves with `result` or rejects
with the `{code, message, data}` error and removes the entry (an unknown
id is logged and dropped); the timeout rejects and deregisters; a failed
`transport.send` rejects with the transport's error and deregisters;
`handleClose` rejects every outstanding entry with "Connection closed" and
clears the table.  Timers are cleared whenever an entry settles, so a
timeout event only has an effect while its id is pending. -/

/-- Effective request timeout `options.requestTimeout || 30000`. -/
def effectiveRequestTimeout : Option Nat → Nat
  | none => 30000
  | some n => if n = 0 then 30000 else n

/-- The ways a pending request's promise settles. -/
inductive RpcOutcome where
  | resolvedResult (v : JValue)
  | rejectedError (code : Int) (message : String) (data : JValue)
  | rejectedTimeout (afterMs : Nat)
  | rejectedClosed
  | rejectedSendFailure (msg : String)
deriving Repr

/-- Settlement kinds enumerated by the specification: result, error
response, timeout, connection closed. -/
def RpcOutcome.claimedWay : RpcOutcome → Bool
  | .resolvedResult _ => true
  | .rejectedError _ _ _ => true
  | .rejectedTimeout _ => true
  | .rejectedClosed => true
  | .rejectedSendFailure _ => false

/-- Events acting on the pending-request table. -/
inductive ClientEvent where
  | register (id : String)
  | response (id : String) (err : Option (Int × String × JValue)) (result : JValue)
  | timeoutFire (id : String)
  | closeFire
  | sendFail (id : String) (msg : String)

/-- Outcome delivered by `handleMessage` for a correlated response:
`pending.reject(new MCPError(code, message, data))` when the response has
an `error`, else `pending.resolve(response.result)`. -/
def responseOutcome (err : Option (Int × String × JValue)) (result : JValue) :
    RpcOutcome :=
  match err with
  | some (c, m, d) => .rejectedError c m d
  | none => .resolvedResult result

/-- One event against the pending table: the new table plus the settled
requests this event produced. -/
def stepClient (timeoutMs : Nat) (pending : List String) :
    ClientEvent → List String × List (String × RpcOutcome)
  | .register id => (pending ++ [id], [])
  | .response id err result =>
      if id ∈ pending then
        (pending.filter (fun k => decide (k ≠ id)), [(id, responseOutcome err result)])
      else (pending, [])
  | .timeoutFire id =>
      if id ∈ pending then
        (pending.filter (fun k => decide (k ≠ id)), [(id, .rejectedTimeout timeoutMs)])
      else (pending, [])
  | .closeFire => ([], pending.map (fun id => (id, .rejectedClosed)))
  | .sendFail id msg =>
      if id ∈ pending then
        (pending.filter (fun k => decide (k ≠ id)), [(id, .rejectedSendFailure msg)])
      else (pending, [])

/-- A whole event history from the fresh client (empty table). -/
def runClient (timeoutMs : Nat) (events : List ClientEvent) :
    List String × List (String × RpcOutcome) :=
  events.foldl
    (fun acc e =>
      let r := stepClient timeoutMs acc.1 e
      (r.1, acc.2 ++ r.2))
    ([], [])

/-- Ids of `register` events (request ids are client-generated nanoids,
unique within the connection lifetime). -/
def registeredIds (events : List ClientEvent) : List String :=
  events.filterMap (fun e => match e with | .register id => some id | _ => none)

/-- Number of settlements recorded for `id`. -/
def settleCount (log : List (String × RpcOutcome)) (id : String) : Nat :=
  (log.filter (fun p => decide (p.1 = id))).length

theorem settleCount_append (l1 l2 : List (String × RpcOutcome)) (id : String) :
    settleCount (l1 ++ l2) id = settleCount l1 id + settleCount l2 id := by
  simp [settleCount, List.filter_append]

theorem settleCount_single (id0 id : String) (o : RpcOutcome) :
    settleCount [(id0, o)] id = if id0 = id then 1 else 0 := by
  by_cases h : id0 = id <;> simp [settleCount, List.filter_cons, h]

theorem settleCount_mapClosed (pending : List String) (id : String) :
    settleCount (pending.map (fun i => (i, RpcOutcome.rejectedClosed))) id =
      pending.count id := by
  induction pending with
  | nil => simp [settleCount]
  | cons h t ih =>
      simp only [List.map_cons, settleCount, List.filter_cons, List.count_cons] at *
      by_cases hh : h = id <;> simp [hh, ih, beq_iff_eq]

theorem count_filter_ne_self (l : List String) (id : String) :
    (l.filter (fun k => decide (k ≠ id))).count id = 0 := by
  rw [List.count_eq_zero]
  intro hmem
  rcases List.mem_filter.mp hmem with ⟨_, hne⟩
  simp at hne

theorem count_filter_ne_other (l : List String) (id x : String) (hx : x ≠ id) :
    (l.filter (fun k => decide (k ≠ id))).count x = l.count x := by
  induction l with
  | nil => simp
  | cons h t ih =>
      rw [List.filter_cons]
      by_cases hh : h = id
      · subst hh
        have hd : (decide (h ≠ h) : Bool) = false := by simp
        rw [hd]
        simp only [Bool.false_eq_true, if_false]
        rw [ih, List.count_cons]
        have hb : (x == h) = false := by simp [hx]
        simp [hb]
        exact fun hc => hx hc.symm
      · have hd : (decide (h ≠ id) : Bool) = true := by simp [hh]
        rw [hd]
        simp only [if_true]
        rw [List.count_cons, List.count_cons, ih]

theorem settle_step_inv (pending : List String) (log : List (String × RpcOutcome))
    (ind : String → Nat) (hind : ∀ id, ind id ≤ 1)
    (hinv : ∀ id, settleCount log id + pending.count id = ind id)
    (id0 : String) (o : RpcOutcome) (hp : id0 ∈ pending) :
    ∀ id, settleCount (log ++ [(id0, o)]) id +
      (pending.filter (fun k => decide (k ≠ id0))).count id = ind id := by
  intro id
  rw [settleCount_append, settleCount_single]
  by_cases hid : id0 = id
  · subst hid
    rw [if_pos rfl, count_filter_ne_self]
    have hc : pending.count id0 ≠ 0 := fun h0 => (List.count_eq_zero.mp h0) hp
    have h1 := hinv id0
    have h2 := hind id0
    omega
  · rw [if_neg hid, count_filter_ne_other _ _ _ (fun hc => hid hc.symm)]
    have h1 := hinv id
    omega

/-- One step of `runClient`'s fold. -/
def clientFoldStep (timeoutMs : Nat)
    (acc : List String × List (String × RpcOutcome)) (e : ClientEvent) :
    List String × List (String × RpcOutcome) :=
  let r := stepClient timeoutMs acc.1 e
  (r.1, acc.2 ++ r.2)

theorem runClient_eq_fold (timeoutMs : Nat) (events : List ClientEvent) :
    runClient timeoutMs events = events.foldl (clientFoldStep timeoutMs) ([], []) := rfl

theorem runClient_inv (timeoutMs : Nat) :
    ∀ (events : List ClientEvent) (regs pending : List String)
      (log : List (String × RpcOutcome)),
      (regs ++ registeredIds events).Nodup →
      (∀ id, settleCount log id + pending.count id = (if id ∈ regs then 1 else 0)) →
      ∀ id,
        settleCount (events.foldl (clientFoldStep timeoutMs) (pending, log)).2 id +
          (events.foldl (clientFoldStep timeoutMs) (pending, log)).1.count id =
        (if id ∈ regs ++ registeredIds events then 1 else 0) := by
  intro events
  induction events with
  | nil =>
      intro regs pending log hnd hinv id
      simpa [registeredIds] using hinv id
  | cons e rest ih =>
      intro regs pending log hnd hinv id
      rw [List.foldl_cons]
      have hind : ∀ i : String, (if i ∈ regs then 1 else 0) ≤ 1 := by
        intro i; split <;> omega
      cases e with
      | register rid =>
          have hrids : registeredIds (.register rid :: rest) =
              rid :: registeredIds rest := rfl
          have hassoc : regs ++ registeredIds (.register rid :: rest) =
              (regs ++ [rid]) ++ registeredIds rest := by
            rw [hrids, List.append_assoc]; rfl
          rw [hassoc] at hnd ⊢
          have hfresh : rid ∉ regs := by
            have := hnd
            rw [List.append_assoc] at this
            have h2 := (List.nodup_append.mp this).2.2
            intro hc
            exact h2 hc (by simp)
          have hinv2 : ∀ i, settleCount (log ++ []) i + (pending ++ [rid]).count i =
              (if i ∈ regs ++ [rid] then 1 else 0) := by
            intro i
            rw [List.append_nil, List.count_append]
            by_cases hi : i = rid
            · subst hi
              have h1 := hinv i
              rw [if_neg hfresh] at h1
              have hc : ([i] : List String).count i = 1 := by simp
              have hm : i ∈ regs ++ [i] := by simp
              rw [hc, if_pos hm]
              omega
            · have h1 := hinv i
              have hc1 : ([rid] : List String).count i = 0 := by
                rw [List.count_eq_zero]
                simp [hi]
              rw [hc1]
              have hmem : (i ∈ regs ++ [rid]) ↔ i ∈ regs := by simp [hi]
              rw [if_congr hmem rfl rfl]
              omega
          exact ih (regs ++ [rid]) (pending ++ [rid]) (log ++ []) hnd hinv2 id
      | response rid err result =>
          have hrids : regs ++ registeredIds (.response rid err result :: rest) =
              regs ++ registeredIds rest := rfl
          rw [hrids] at hnd ⊢
          by_cases hp : rid ∈ pending
          · have hstep : clientFoldStep timeoutMs (pending, log) (.response rid err result) =
                (pending.filter (fun k => decide (k ≠ rid)),
                 log ++ [(rid, responseOutcome err result)]) := by
              simp [clientFoldStep, stepClient, hp]
            rw [hstep]
            exact ih regs _ _ hnd
              (settle_step_inv pending log _ hind hinv rid _ hp) id
          · have hstep : clientFoldStep timeoutMs (pending, log) (.response rid err result) =
                (pending, log ++ []) := by
              simp [clientFoldStep, stepClient, hp]
            rw [hstep]
            exact ih regs _ _ hnd (by simpa using hinv) id
      | timeoutFire rid =>
          have hrids : regs ++ registeredIds (.timeoutFire rid :: rest) =
              regs ++ registeredIds rest := rfl
          rw [hrids] at hnd ⊢
          by_cases hp : rid ∈ pending
          · have hstep : clientFoldStep timeoutMs (pending, log) (.timeoutFire rid) =
                (pending.filter (fun k => decide (k ≠ rid)),
                 log ++ [(rid, .rejectedTimeout timeoutMs)]) := by
              simp [clientFoldStep, stepClient, hp]
            rw [hstep]
            exact ih regs _ _ hnd
              (settle_step_inv pending log _ hind hinv rid _ hp) id
          · have hstep : clientFoldStep timeoutMs (pending, log) (.timeoutFire rid) =
                (pending, log ++ []) := by
              simp [clientFoldStep, stepClient, hp]
            rw [hstep]
            exact ih regs _ _ hnd (by simpa using hinv) id
      | closeFire =>
          have hrids : regs ++ registeredIds (.closeFire :: rest) =
              regs ++ registeredIds rest := rfl
          rw [hrids] at hnd ⊢
          have hstep : clientFoldStep timeoutMs (pending, log) .closeFire =
              ([], log ++ pending.map (fun i => (i, RpcOutcome.rejectedClosed))) := by
            simp [clientFoldStep, stepClient]
          rw [hstep]
          refine ih regs [] _ hnd (fun i => ?_) id
          rw [settleCount_append, settleCount_mapClosed]
          have h1 := hinv i
          simp only [List.count_nil]
          omega
      | sendFail rid msg =>
          have hrids : regs ++ registeredIds (.sendFail rid msg :: rest) =
              regs ++ registeredIds rest := rfl
          rw [hrids] at hnd ⊢
          by_cases hp : rid ∈ pending
          · have hstep : clientFoldStep timeoutMs (pending, log) (.sendFail rid msg) =
                (pending.filter (fun k => decide (k ≠ rid)),
                 log ++ [(rid, .rejectedSendFailure msg)]) := by
              simp [clientFoldStep, stepClient, hp]
            rw [hstep]
            exact ih regs _ _ hnd
              (settle_step_inv pending log _ hind hinv rid _ hp) id
          · have hstep : clientFoldStep timeoutMs (pending, log) (.sendFail rid msg) =
                (pending, log ++ []) := by
              simp [clientFoldStep, stepClient, hp]
            rw [hstep]
            exact ih regs _ _ hnd (by simpa using hinv) id

/-- C6 counterexample: a request whose `transport.send` fails settles by a
rejection with the transport's error — a fifth way, outside the four the
claim enumerates (correlated response result, response error, timeout,
connection closed). -/
theorem mcpClient_request_counterexample :
    (runClient 30000 [.register "r1", .sendFail "r1" "WebSocket not connected"]).2 =
      [("r1", .rejectedSendFailure "WebSocket not connected")] ∧
    ((runClient 30000 [.register "r1", .sendFail "r1" "WebSocket not connected"]).2.all
      (fun p => p.2.claimedWay)) = false := by
  exact ⟨rfl, rfl⟩

/-- C6 (amended): for request ids unique within the connection lifetime,
every registered request settles exactly once — resolved with the
correlated response's result, rejected with its `\x7bcode, message, data\x7d`
error, rejected by the timeout (default 30 s) with the entry deregistered,
rejected on transport close, or rejected when sending fails — and is
otherwise still pending (never silently lost); ids never registered never
settle; transport close settles every outstanding request with the
connection-closed rejection and empties the table. -/
theorem mcpClient_request_exactly_once :
    ∀ (timeoutMs : Nat) (events : List ClientEvent),
      (registeredIds events).Nodup →
      (∀ id, id ∈ registeredIds events →
        settleCount (runClient timeoutMs events).2 id +
          (runClient timeoutMs events).1.count id = 1) ∧
      (∀ id, id ∉ registeredIds events →
        settleCount (runClient timeoutMs events).2 id = 0 ∧
          id ∉ (runClient timeoutMs events).1) ∧
      (∀ pending, stepClient timeoutMs pending .closeFire =
        ([], pending.map (fun i => (i, RpcOutcome.rejectedClosed)))) ∧
      effectiveRequestTimeout none = 30000 := by
  intro timeoutMs events hnd
  have hmain := runClient_inv timeoutMs events [] [] []
    (by simpa using hnd) (fun id => by simp [settleCount])
  refine ⟨?_, ?_, (fun pending => rfl), rfl⟩
  · intro id hid
    have h := hmain id
    rw [runClient_eq_fold]
    simpa [hid] using h
  · intro id hid
    have h := hmain id
    rw [runClient_eq_fold]
    simp only [List.nil_append, if_neg hid] at h
    refine ⟨by omega, List.count_eq_zero.mp (by omega)⟩

/-- Witness for C6 (amended): two requests; one settles by its correlated
response, the other by the transport close; each exactly once. -/
theorem mcpClient_request_exactly_once_witness :
    settleCount (runClient 30000 [.register "r1", .register "r2",
        .response "r1" none (.str "ok"), .closeFire]).2 "r1" +
      (runClient 30000 [.register "r1", .register "r2",
        .response "r1" none (.str "ok"), .closeFire]).1.count "r1" = 1 ∧
    settleCount (runClient 30000 [.register "r1", .register "r2",
        .response "r1" none (.str "ok"), .closeFire]).2 "r2" +
      (runClient 30000 [.register "r1", .register "r2",
        .response "r1" none (.str "ok"), .closeFire]).1.count "r2" = 1 := by
  have h := mcpClient_request_exactly_once 30000
    [.register "r1", .register "r2", .response "r1" none (.str "ok"), .closeFire]
    (by decide)
  exact ⟨h.1 "r1" (by decide), h.1 "r2" (by decide)⟩

/-! ## Context serialization (workflow-engine/src/index.ts)

`serializeContext` turns `Context.outputs` (a `Map`) into a plain object
via `Object.fromEntries`; `deserializeContext` rebuilds the `Map` from
`Object.entries`.  Both a `Map` built from entries and an object built by
`Object.fromEntries` keep the first-insertion position of a key and let a
later duplicate overwrite its value, which `setEntry` models; `Object.entries`
is the identity on the association-list model.  The source field
`variables` is named `vars` here (`variables` is reserved in Lean).
(The engine's objects additionally move integer-like keys first; that
affects only iteration order, so the round-trip statement is at lookup
level.) -/

/-- In-place insert-or-update of one entry (JS property write). -/
def setEntry (l : List (String × JValue)) (k : String) (v : JValue) :
    List (String × JValue) :=
  match l with
  | [] => [(k, v)]
  | (k1, v1) :: t => if k1 = k then (k1, v) :: t else (k1, v1) :: setEntry t k v

/-- `Object.fromEntries` / `new Map(entries)`: entries written in order. -/
def objFromEntries (entries : List (String × JValue)) : List (String × JValue) :=
  entries.foldl (fun acc p => setEntry acc p.1 p.2) []

/-- In-memory execution context of one run (`WorkflowContext`):
`outputs` is a `Map` keyed by node id, `vars` models `variables`. -/
structure WorkflowContext where
  runId : String
  tenantId : String
  vars : List (String × JValue)
  outputs : List (String × JValue)
deriving Repr

/-- Persisted form (`SerializedContext`): `outputs` as a plain object. -/
structure SerializedContext where
  runId : String
  tenantId : String
  vars : List (String × JValue)
  outputs : List (String × JValue)
deriving Repr

/-- Shallow embedding of `serializeContext`. -/
def serializeContext (context : WorkflowContext) : SerializedContext :=
  { runId := context.runId, tenantId := context.tenantId,
    vars := context.vars,
    outputs := objFromEntries context.outputs }

/-- Shallow embedding of `deserializeContext`. -/
def deserializeContext (serialized : SerializedContext) : WorkflowContext :=
  { runId := serialized.runId, tenantId := serialized.tenantId,
    vars := serialized.vars,
    outputs := objFromEntries serialized.outputs }

theorem setEntry_append_fresh (l : List (String × JValue)) (k : String) (v : JValue)
    (hk : k ∉ l.map Prod.fst) : setEntry l k v = l ++ [(k, v)] := by
  induction l with
  | nil => rfl
  | cons h t ih =>
      obtain ⟨k1, v1⟩ := h
      simp only [List.map_cons, List.mem_cons] at hk
      push_neg at hk
      obtain ⟨hk1, hk2⟩ := hk
      simp only [setEntry]
      rw [if_neg (fun hc => hk1 hc.symm), ih hk2]
      rfl

theorem foldl_setEntry_append (l : List (String × JValue)) :
    ∀ acc : List (String × JValue),
      ((acc ++ l).map Prod.fst).Nodup →
      l.foldl (fun acc p => setEntry acc p.1 p.2) acc = acc ++ l := by
  induction l with
  | nil => intro acc _; simp
  | cons p t ih =>
      intro acc hacc
      rw [List.foldl_cons]
      have hfresh : p.1 ∉ acc.map Prod.fst := by
        intro hc
        rw [List.map_append] at hacc
        have hdisj := (List.nodup_append.mp hacc).2.2
        exact hdisj hc (by simp)
      rw [setEntry_append_fresh acc p.1 p.2 hfresh]
      have hnd2 : (((acc ++ [p]) ++ t).map Prod.fst).Nodup := by
        simpa [List.append_assoc] using hacc
      rw [ih (acc ++ [p]) hnd2]
      simp

theorem objFromEntries_nodup (l : List (String × JValue))
    (hnd : (l.map Prod.fst).Nodup) : objFromEntries l = l := by
  simpa using foldl_setEntry_append l [] (by simpa using hnd)

/-- C10: for every context whose outputs map has (necessarily) distinct
string keys, serializing and deserializing yields a context with the same
`runId`, `tenantId`, `variables`, and the same key-to-value outputs
mapping. -/
theorem serializeContext_roundTrip :
    ∀ c : WorkflowContext, (c.outputs.map Prod.fst).Nodup →
      (deserializeContext (serializeContext c)).runId = c.runId ∧
      (deserializeContext (serializeContext c)).tenantId = c.tenantId ∧
      (deserializeContext (serializeContext c)).vars = c.vars ∧
      ∀ k, alookup (deserializeContext (serializeContext c)).outputs k =
        alookup c.outputs k := by
  intro c hnd
  have h1 : objFromEntries c.outputs = c.outputs := objFromEntries_nodup _ hnd
  have h2 : (deserializeContext (serializeContext c)).outputs = c.outputs := by
    simp [deserializeContext, serializeContext, h1]
  exact ⟨rfl, rfl, rfl, fun k => by rw [h2]⟩

/-- Witness for C10: a concrete two-output context round-trips. -/
theorem serializeContext_roundTrip_witness :
    (deserializeContext (serializeContext
      { runId := "run-1", tenantId := "t-1",
        vars := [("env", .str "prod")],
        outputs := [("a", .obj [("text", .str "hello")]), ("b", .num 2)] })).runId
      = "run-1" ∧
    alookup (deserializeContext (serializeContext
      { runId := "run-1", tenantId := "t-1",
        vars := [("env", .str "prod")],
        outputs := [("a", .obj [("text", .str "hello")]), ("b", .num 2)] })).outputs "b"
      = some (.num 2) := by
  have h := serializeContext_roundTrip
    { runId := "run-1", tenantId := "t-1",
      vars := [("env", .str "prod")],
      outputs := [("a", .obj [("text", .str "hello")]), ("b", .num 2)] }
    (by decide)
  exact ⟨h.1, (h.2.2.2 "b").trans rfl⟩

/-! ## Variable resolver (executors/base.ts, `NodeExecutor.resolveValue`)

For strings the source runs
`value.replace(/\$\{([^}]+)\}/g, (match, path) => ...)`: scan left to
right; at `$` `{` capture up to the first `}` (at least one character);
replace the whole template by the replacer's return value and continue
after the `}`; a `$` `{` with no closing `}` ahead, or with an empty
interior, matches nothing and scanning continues after the `{` (no later
match can begin inside those two characters).  `scanGo` implements this
with a fuel argument only so that the recursion into the remainder after
a match is structural; the wrapper supplies `length` fuel, which is always
sufficient since every step consumes at least one character.
The replacer splits the captured path at `.`; `outputs.<nodeId>` is looked
up in `Context.outputs` and dropped when falsy (`if (!output) return
match`); further segments run the loop
`if (result && typeof result === 'object') result = result[parts[i]];
else return match`, and at the end `result !== undefined ? String(result)
: match`.  `variables.<name>` (exactly two segments) resolves when not
`undefined`.  Arrays and objects recurse element-wise; other scalars are
returned unchanged. -/

/-- Resolver view of the context: `variables` record and `outputs` map. -/
structure ResolverContext where
  vars : List (String × JValue)
  outputs : List (String × JValue)

/-- JS `value && typeof value === 'object'` (null is falsy). -/
def isObjectLike : JValue → Bool
  | .obj _ => true
  | .arr _ => true
  | _ => false

/-- Discriminator for `undefined`. -/
def JValue.isUndef : JValue → Bool
  | .undef => true
  | _ => false

/-- Canonical array-index strings (`"0"`, `"17"`, but not `"02"`). -/
def canonicalIndex (k : String) : Option Nat :=
  match k.toNat? with
  | some i => if toString i = k then some i else none
  | none => none

/-- JS property read `result[key]` on object-like values; a missing key
gives `undefined`. -/
def getProp (v : JValue) (k : String) : JValue :=
  match v with
  | .obj fs => (alookup fs k).getD .undef
  | .arr xs =>
      if k = "length" then .num xs.length
      else
        match canonicalIndex k with
        | some i => (xs.get? i).getD .undef
        | none => .undef
  | _ => JValue.undef

/-- The traversal loop over the dotted segments after `outputs.<nodeId>`:
`none` models the loop's early `return match`. -/
def walkPath : JValue → List String → Option JValue
  | v, [] => some v
  | v, k :: ks => if isObjectLike v then walkPath (getProp v k) ks else none

/-- The original template text `$\x7bpath\x7d` preserved on failure. -/
def templateLiteral (path : String) : String :=
  "$\x7b" ++ path ++ "\x7d"

/-- The replacer: given the captured path, produce the replacement string
or the preserved literal. -/
def resolvePath (path : String) (ctx : ResolverContext) : String :=
  match jsSplit path '.' with
  | "outputs" :: nodeId :: rest =>
      let output := (alookup ctx.outputs nodeId).getD .undef
      if !output.truthy then templateLiteral path
      else
        match walkPath output rest with
        | some r => if r.isUndef then templateLiteral path else r.toJsString
        | none => templateLiteral path
  | ["variables", name] =>
      match alookup ctx.vars name with
      | some v => if v.isUndef then templateLiteral path else v.toJsString
      | none => templateLiteral path
  | _ => templateLiteral path

/-- Split at the first closing brace: `some (before, after)` when a `\x7d`
exists. -/
def splitAtBrace : List Char → Option (List Char × List Char)
  | [] => none
  | c :: t =>
      if c = '\x7d' then some ([], t)
      else
        match splitAtBrace t with
        | some (a, b) => some (c :: a, b)
        | none => none

/-- The template scan of `String.prototype.replace` with the resolver's
regex; `fuel` only makes the recursion structural. -/
def scanGo (ctx : ResolverContext) : Nat → List Char → List Char
  | _, [] => []
  | 0, l => l
  | fuel + 1, c :: rest =>
      if c = '$' ∧ rest.head? = some '\x7b' then
        match splitAtBrace rest.tail with
        | some (interior, after) =>
            if interior.isEmpty then '$' :: '\x7b' :: scanGo ctx fuel rest.tail
            else (resolvePath (String.mk interior) ctx).data ++ scanGo ctx fuel after
        | none => '$' :: '\x7b' :: scanGo ctx fuel rest.tail
      else c :: scanGo ctx fuel rest

/-- String-level resolution: scan with sufficient fuel. -/
def resolveString (s : String) (ctx : ResolverContext) : String :=
  String.mk (scanGo ctx s.data.length s.data)

mutual

/-- Shallow embedding of `NodeExecutor.resolveValue`: strings get template
substitution, arrays and objects recurse element-wise, everything else is
returned unchanged. -/
def resolveValue : JValue → ResolverContext → JValue
  | .str s, ctx => .str (resolveString s ctx)
  | .arr xs, ctx => .arr (resolveValueList xs ctx)
  | .obj fs, ctx => .obj (resolveValueObj fs ctx)
  | v, _ => v
  termination_by structural v _ => v

/-- `value.map(item => this.resolveValue(item, context))`. -/
def resolveValueList : List JValue → ResolverContext → List JValue
  | [], _ => []
  | x :: t, ctx => resolveValue x ctx :: resolveValueList t ctx
  termination_by structural l _ => l

/-- `Object.entries` / per-key recursion for plain objects. -/
def resolveValueObj : List (String × JValue) → ResolverContext →
    List (String × JValue)
  | [], _ => []
  | (k, v) :: t, ctx => (k, resolveValue v ctx) :: resolveValueObj t ctx
  termination_by structural l _ => l

end

/-! ### Scanner lemmas -/

/-- The scan at its canonical fuel (`resolveString` on character lists). -/
def scanL (ctx : ResolverContext) (l : List Char) : List Char :=
  scanGo ctx l.length l

theorem resolveString_data (s : String) (ctx : ResolverContext) :
    resolveString s ctx = String.mk (scanL ctx s.data) := rfl

theorem scanGo_nil (ctx : ResolverContext) (n : Nat) : scanGo ctx n [] = [] := by
  cases n <;> rfl

theorem scanGo_succ (ctx : ResolverContext) (fuel : Nat) (c : Char) (rest : List Char) :
    scanGo ctx (fuel + 1) (c :: rest) =
      if c = '$' ∧ rest.head? = some '\x7b' then
        match splitAtBrace rest.tail with
        | some (interior, after) =>
            if interior.isEmpty then '$' :: '\x7b' :: scanGo ctx fuel rest.tail
            else (resolvePath (String.mk interior) ctx).data ++ scanGo ctx fuel after
        | none => '$' :: '\x7b' :: scanGo ctx fuel rest.tail
      else c :: scanGo ctx fuel rest := rfl

theorem splitAtBrace_spec (l : List Char) :
    ∀ a b, splitAtBrace l = some (a, b) →
      l = a ++ '\x7d' :: b ∧ '\x7d' ∉ a := by
  induction l with
  | nil => intro a b h; simp [splitAtBrace] at h
  | cons c t ih =>
      intro a b h
      by_cases hc : c = '\x7d'
      · subst hc
        simp [splitAtBrace] at h
        obtain ⟨ha, hb⟩ := h
        subst ha; subst hb
        simp
      · simp only [splitAtBrace, if_neg hc] at h
        cases hsp : splitAtBrace t with
        | none => rw [hsp] at h; simp at h
        | some p =>
            obtain ⟨a2, b2⟩ := p
            rw [hsp] at h
            simp only [Option.some.injEq, Prod.mk.injEq] at h
            obtain ⟨ha, hb⟩ := h
            subst ha
            subst hb
            obtain ⟨h1, h2⟩ := ih a2 b2 hsp
            refine ⟨by rw [h1]; rfl, ?_⟩
            intro hm
            rcases List.mem_cons.mp hm with h3 | h3
            · exact hc h3.symm
            · exact h2 h3

theorem splitAtBrace_none_iff (l : List Char) :
    splitAtBrace l = none ↔ '\x7d' ∉ l := by
  induction l with
  | nil => simp [splitAtBrace]
  | cons c t ih =>
      by_cases hc : c = '\x7d'
      · subst hc
        simp [splitAtBrace]
      · simp only [splitAtBrace, if_neg hc, List.mem_cons]
        cases hsp : splitAtBrace t with
        | none =>
            simp only [true_iff]
            push_neg
            exact ⟨fun hm => hc hm.symm, ih.mp hsp⟩
        | some p =>
            obtain ⟨a2, b2⟩ := p
            have hmem : '\x7d' ∈ t := by
              obtain ⟨h1, _⟩ := splitAtBrace_spec t a2 b2 hsp
              rw [h1]; simp
            exact iff_of_false (by simp) (fun h => h (Or.inr hmem))

theorem splitAtBrace_append (a b : List Char) (ha : '\x7d' ∉ a) :
    splitAtBrace (a ++ '\x7d' :: b) = some (a, b) := by
  induction a with
  | nil => simp [splitAtBrace]
  | cons c t ih =>
      simp only [List.mem_cons] at ha
      push_neg at ha
      have hc : ¬ c = '\x7d' := fun h => ha.1 h.symm
      have h2 := ih ha.2
      show splitAtBrace (c :: (t ++ '\x7d' :: b)) = some (c :: t, b)
      simp only [splitAtBrace, if_neg hc, h2]

theorem scanGo_fuel_eq (ctx : ResolverContext) :
    ∀ n : Nat, ∀ l : List Char, l.length ≤ n → scanGo ctx n l = scanL ctx l := by
  intro n
  induction n using Nat.strong_induction_on with
  | _ n ih =>
      intro l hl
      cases l with
      | nil => simp [scanL, scanGo_nil]
      | cons c rest =>
          cases n with
          | zero => simp at hl
          | succ k =>
              have hk : rest.length ≤ k := by simpa using hl
              rw [show scanL ctx (c :: rest) =
                    scanGo ctx (rest.length + 1) (c :: rest) from rfl,
                  scanGo_succ, scanGo_succ]
              by_cases hc : c = '$' ∧ rest.head? = some '\x7b'
              · rw [if_pos hc, if_pos hc]
                obtain ⟨c2, rt, hrest⟩ : ∃ c2 rt, rest = c2 :: rt := by
                  cases rest with
                  | nil => simp at hc
                  | cons a b => exact ⟨a, b, rfl⟩
                subst hrest
                simp only [List.tail_cons, List.length_cons]
                have hrt : rt.length + 1 ≤ k := by simpa using hk
                cases hsb : splitAtBrace rt with
                | none =>
                    simp only [hsb]
                    rw [ih k (by omega) rt (by omega),
                        ih (rt.length + 1) (by omega) rt (by omega)]
                | some p =>
                    obtain ⟨interior, after⟩ := p
                    simp only [hsb]
                    have hlen : rt = interior ++ '\x7d' :: after :=
                      (splitAtBrace_spec rt interior after hsb).1
                    have hafter : after.length + 1 ≤ rt.length := by
                      rw [hlen, List.length_append, List.length_cons]; omega
                    by_cases hie : interior.isEmpty
                    · rw [if_pos hie, if_pos hie,
                          ih k (by omega) rt (by omega),
                          ih (rt.length + 1) (by omega) rt (by omega)]
                    · rw [if_neg hie, if_neg hie,
                          ih k (by omega) after (by omega),
                          ih (rt.length + 1) (by omega) after (by omega)]
              · rw [if_neg hc, if_neg hc,
                    ih k (by omega) rest (by omega)]
                rfl

theorem scanL_plain (ctx : ResolverContext) (c : Char) (rest : List Char)
    (h : ¬(c = '$' ∧ rest.head? = some '\x7b')) :
    scanL ctx (c :: rest) = c :: scanL ctx rest := by
  rw [show scanL ctx (c :: rest) = scanGo ctx (rest.length + 1) (c :: rest) from rfl,
      scanGo_succ, if_neg h]
  rfl

theorem scanL_template (ctx : ResolverContext) (rest interior after : List Char)
    (hsb : splitAtBrace rest = some (interior, after)) (hne : interior ≠ []) :
    scanL ctx ('$' :: '\x7b' :: rest) =
      (resolvePath (String.mk interior) ctx).data ++ scanL ctx after := by
  rw [show scanL ctx ('$' :: '\x7b' :: rest) =
        scanGo ctx (rest.length + 1 + 1) ('$' :: '\x7b' :: rest) from rfl,
      scanGo_succ, if_pos ⟨rfl, rfl⟩]
  simp only [List.tail_cons, hsb]
  rw [if_neg (by simpa [List.isEmpty_iff] using hne)]
  have hlen : rest = interior ++ '\x7d' :: after :=
    (splitAtBrace_spec rest interior after hsb).1
  rw [scanGo_fuel_eq ctx (rest.length + 1) after
    (by rw [hlen, List.length_append, List.length_cons]; omega)]

theorem scanL_emptyTemplate (ctx : ResolverContext) (rest after : List Char)
    (hsb : splitAtBrace rest = some ([], after)) :
    scanL ctx ('$' :: '\x7b' :: rest) = '$' :: '\x7b' :: scanL ctx rest := by
  rw [show scanL ctx ('$' :: '\x7b' :: rest) =
        scanGo ctx (rest.length + 1 + 1) ('$' :: '\x7b' :: rest) from rfl,
      scanGo_succ, if_pos ⟨rfl, rfl⟩]
  simp only [List.tail_cons, hsb]
  have hemp : (([] : List Char).isEmpty = true) := rfl
  rw [if_pos hemp, scanGo_fuel_eq ctx (rest.length + 1) rest (by omega)]

theorem scanL_noClose (ctx : ResolverContext) (rest : List Char)
    (hsb : splitAtBrace rest = none) :
    scanL ctx ('$' :: '\x7b' :: rest) = '$' :: '\x7b' :: scanL ctx rest := by
  rw [show scanL ctx ('$' :: '\x7b' :: rest) =
        scanGo ctx (rest.length + 1 + 1) ('$' :: '\x7b' :: rest) from rfl,
      scanGo_succ, if_pos ⟨rfl, rfl⟩]
  simp only [List.tail_cons, hsb]
  rw [scanGo_fuel_eq ctx (rest.length + 1) rest (by omega)]

/-- Replacement strings that can never interact with the scan: nonempty
and free of `$`, `\x7b`, `\x7d`. -/
def CleanRepl (s : String) : Prop :=
  s.data ≠ [] ∧ ∀ c ∈ s.data, c ≠ '$' ∧ c ≠ '\x7b' ∧ c ≠ '\x7d'

/-- A context whose every possible replacement is either clean or the
preserved literal itself. -/
def CleanCtx (ctx : ResolverContext) : Prop :=
  ∀ p : String, CleanRepl (resolvePath p ctx) ∨ resolvePath p ctx = templateLiteral p

theorem scanL_no_brace (ctx : ResolverContext) :
    ∀ n : Nat, ∀ l : List Char, l.length ≤ n → '\x7d' ∉ l → scanL ctx l = l := by
  intro n
  induction n with
  | zero =>
      intro l hl _
      have : l = [] := List.eq_nil_of_length_eq_zero (by omega)
      subst this; rfl
  | succ k ih =>
      intro l hl hnb
      cases l with
      | nil => rfl
      | cons c rest =>
          by_cases hc : c = '$' ∧ rest.head? = some '\x7b'
          · obtain ⟨hcd, hh⟩ := hc
            subst hcd
            obtain ⟨rt, hrt⟩ : ∃ rt, rest = '\x7b' :: rt := by
              cases rest with
              | nil => simp at hh
              | cons a b => exact ⟨b, by simpa using hh⟩
            subst hrt
            have hnbrt : '\x7d' ∉ rt := fun hm => hnb (by simp [hm])
            rw [scanL_noClose ctx rt ((splitAtBrace_none_iff rt).mpr hnbrt),
                ih rt (by simp at hl; omega) hnbrt]
          · have hnbrest : '\x7d' ∉ rest := fun hm => hnb (by simp [hm])
            rw [scanL_plain ctx c rest hc, ih rest (by simp at hl; omega) hnbrest]

theorem scanL_clean_append (ctx : ResolverContext) :
    ∀ a b : List Char, (∀ c ∈ a, c ≠ '$') →
      scanL ctx (a ++ b) = a ++ scanL ctx b := by
  intro a
  induction a with
  | nil => intro b _; rfl
  | cons c t ih =>
      intro b ha
      have hc : ¬(c = '$' ∧ (t ++ b).head? = some '\x7b') := by
        intro hcon
        exact (ha c (by simp)) hcon.1
      rw [List.cons_append, scanL_plain ctx c (t ++ b) hc,
          ih b (fun x hx => ha x (by simp [hx]))]
      rfl

theorem head?_append_ne_nil {x y : List Char} (hx : x ≠ []) :
    (x ++ y).head? = x.head? := by
  cases x with
  | nil => exact absurd rfl hx
  | cons a t => rfl

theorem templateLiteral_data (p : String) :
    (templateLiteral p).data = '$' :: '\x7b' :: (p.data ++ ['\x7d']) := by
  simp [templateLiteral, String.data_append]

theorem scanL_head_not_brace (ctx : ResolverContext) (H : CleanCtx ctx) :
    ∀ l : List Char, l.head? ≠ some '\x7b' →
      (scanL ctx l).head? ≠ some '\x7b' := by
  intro l hl
  cases l with
  | nil => simp [scanL, scanGo_nil]
  | cons c rest =>
      by_cases hc : c = '$' ∧ rest.head? = some '\x7b'
      · obtain ⟨hcd, hh⟩ := hc
        subst hcd
        obtain ⟨rt, hrt⟩ : ∃ rt, rest = '\x7b' :: rt := by
          cases rest with
          | nil => simp at hh
          | cons a b => exact ⟨b, by simpa using hh⟩
        subst hrt
        cases hsb : splitAtBrace rt with
        | none => rw [scanL_noClose ctx rt hsb]; simp
        | some p =>
            obtain ⟨i, after⟩ := p
            by_cases hie : i = []
            · subst hie
              rw [scanL_emptyTemplate ctx rt after hsb]
              simp
            · rw [scanL_template ctx rt i after hsb hie]
              rcases H (String.mk i) with hcl | hlit
              · obtain ⟨hne, hch⟩ := hcl
                rw [head?_append_ne_nil hne]
                cases hd : (resolvePath (String.mk i) ctx).data with
                | nil => exact absurd hd hne
                | cons c0 t0 =>
                    intro hcon
                    have hc0 : c0 = '\x7b' := by simpa using hcon
                    exact ((hch c0 (by rw [hd]; simp)).2.1) hc0
              · rw [hlit, templateLiteral_data]
                simp
      · rw [scanL_plain ctx c rest hc]
        simp only [List.head?_cons, Option.some.injEq] at hl ⊢
        exact hl

theorem scanL_idem (ctx : ResolverContext) (H : CleanCtx ctx) :
    ∀ n : Nat, ∀ l : List Char, l.length ≤ n →
      scanL ctx (scanL ctx l) = scanL ctx l := by
  intro n
  induction n with
  | zero =>
      intro l hl
      have : l = [] := List.eq_nil_of_length_eq_zero (by omega)
      subst this; rfl
  | succ k ih =>
      intro l hl
      cases l with
      | nil => rfl
      | cons c rest =>
          by_cases hc : c = '$' ∧ rest.head? = some '\x7b'
          · obtain ⟨hcd, hh⟩ := hc
            subst hcd
            obtain ⟨rt, hrt⟩ : ∃ rt, rest = '\x7b' :: rt := by
              cases rest with
              | nil => simp at hh
              | cons a b => exact ⟨b, by simpa using hh⟩
            subst hrt
            cases hsb : splitAtBrace rt with
            | none =>
                have hnbrt : '\x7d' ∉ rt := (splitAtBrace_none_iff rt).mp hsb
                have hnb : '\x7d' ∉ ('$' :: '\x7b' :: rt) := by
                  intro hm
                  rcases List.mem_cons.mp hm with h1 | hm2
                  · exact absurd h1 (by decide)
                  rcases List.mem_cons.mp hm2 with h1 | hm3
                  · exact absurd h1 (by decide)
                  · exact hnbrt hm3
                have heq := scanL_no_brace ctx ('$' :: '\x7b' :: rt).length
                  ('$' :: '\x7b' :: rt) le_rfl hnb
                rw [heq, heq]
            | some p =>
                obtain ⟨i, after⟩ := p
                have hrt2 : rt = i ++ '\x7d' :: after :=
                  (splitAtBrace_spec rt i after hsb).1
                have hafter : after.length ≤ k := by
                  have : ('$' :: '\x7b' :: rt).length ≤ k + 1 := hl
                  rw [hrt2] at this
                  simp [List.length_append] at this
                  omega
                by_cases hie : i = []
                · subst hie
                  have hrt3 : rt = '\x7d' :: after := by simpa using hrt2
                  rw [scanL_emptyTemplate ctx rt after hsb]
                  rw [hrt3, scanL_plain ctx '\x7d' after
                    (fun hcon => absurd hcon.1 (by decide))]
                  have hsb2 : splitAtBrace ('\x7d' :: scanL ctx after) =
                      some ([], scanL ctx after) := by
                    simp [splitAtBrace]
                  rw [scanL_emptyTemplate ctx ('\x7d' :: scanL ctx after)
                        (scanL ctx after) hsb2,
                      scanL_plain ctx '\x7d' (scanL ctx after)
                        (fun hcon => absurd hcon.1 (by decide)),
                      ih after hafter]
                · rw [scanL_template ctx rt i after hsb hie]
                  rcases H (String.mk i) with hcl | hlit
                  · rw [scanL_clean_append ctx (resolvePath (String.mk i) ctx).data
                          (scanL ctx after) (fun x hx => (hcl.2 x hx).1),
                        ih after hafter]
                  · rw [hlit, templateLiteral_data]
                    have hmkdata : (String.mk i).data = i := rfl
                    rw [hmkdata]
                    have hnbi : '\x7d' ∉ i := (splitAtBrace_spec rt i after hsb).2
                    have hsb2 : splitAtBrace (i ++ '\x7d' :: scanL ctx after) =
                        some (i, scanL ctx after) := splitAtBrace_append i _ hnbi
                    have hassoc : (i ++ ['\x7d']) ++ scanL ctx after =
                        i ++ '\x7d' :: scanL ctx after := by simp
                    rw [List.cons_append, List.cons_append, hassoc,
                        scanL_template ctx (i ++ '\x7d' :: scanL ctx after) i
                          (scanL ctx after) hsb2 hie,
                        ih after hafter, hlit, templateLiteral_data, hmkdata]
                    simp
          · rw [scanL_plain ctx c rest hc]
            have hc2 : ¬(c = '$' ∧ (scanL ctx rest).head? = some '\x7b') := by
              push_neg at hc ⊢
              intro h1
              exact scanL_head_not_brace ctx H rest (hc h1)
            rw [scanL_plain ctx c (scanL ctx rest) hc2,
                ih rest (by simp at hl; omega)]

theorem resolveValueList_map (xs : List JValue) (ctx : ResolverContext) :
    resolveValueList xs ctx = xs.map (fun x => resolveValue x ctx) := by
  induction xs with
  | nil => rfl
  | cons x t ih => simp [resolveValueList, ih]

theorem resolveValueObj_map (fs : List (String × JValue)) (ctx : ResolverContext) :
    resolveValueObj fs ctx = fs.map (fun p => (p.1, resolveValue p.2 ctx)) := by
  induction fs with
  | nil => rfl
  | cons p t ih =>
      obtain ⟨k, v⟩ := p
      simp [resolveValueObj, ih]

theorem resolveString_idem (ctx : ResolverContext) (H : CleanCtx ctx) (s : String) :
    resolveString (resolveString s ctx) ctx = resolveString s ctx := by
  show String.mk (scanL ctx (scanL ctx s.data)) = String.mk (scanL ctx s.data)
  exact congrArg String.mk (scanL_idem ctx H s.data.length s.data le_rfl)

theorem resolveValue_idem_aux (ctx : ResolverContext) (H : CleanCtx ctx) :
    ∀ n : Nat, ∀ v : JValue, sizeOf v ≤ n →
      resolveValue (resolveValue v ctx) ctx = resolveValue v ctx := by
  intro n
  induction n with
  | zero =>
      intro v hv
      exfalso
      cases v <;> simp at hv
  | succ k ih =>
      intro v hv
      cases v with
      | str s => exact congrArg JValue.str (resolveString_idem ctx H s)
      | num m => rfl
      | bool b => rfl
      | null => rfl
      | undef => rfl
      | arr xs =>
          rw [show resolveValue (.arr xs) ctx = .arr (resolveValueList xs ctx) from rfl,
              resolveValueList_map,
              show resolveValue (.arr (xs.map fun x => resolveValue x ctx)) ctx =
                .arr (resolveValueList (xs.map fun x => resolveValue x ctx) ctx) from rfl,
              resolveValueList_map, List.map_map]
          congr 1
          apply List.map_congr_left
          intro x hx
          have h1 := List.sizeOf_lt_of_mem hx
          have h2 : sizeOf (JValue.arr xs) = 1 + sizeOf xs := by simp
          exact ih x (by omega)
      | obj fs =>
          rw [show resolveValue (.obj fs) ctx = .obj (resolveValueObj fs ctx) from rfl,
              resolveValueObj_map,
              show resolveValue (.obj (fs.map fun p => (p.1, resolveValue p.2 ctx))) ctx =
                .obj (resolveValueObj (fs.map fun p => (p.1, resolveValue p.2 ctx)) ctx)
                from rfl,
              resolveValueObj_map, List.map_map]
          congr 1
          apply List.map_congr_left
          intro p hp
          obtain ⟨kk, vv⟩ := p
          have h1 := List.sizeOf_lt_of_mem hp
          have h2 : sizeOf (JValue.obj fs) = 1 + sizeOf fs := by simp
          have h3 : sizeOf (kk, vv) = 1 + sizeOf kk + sizeOf vv := by simp
          simp only [Function.comp_def]
          have h4 := ih vv (by omega)
          simp [h4]

/-- C4 counterexample: resolution is not idempotent — with
`variables = \x7ba: "$\x7bvariables.b\x7d", b: "B"\x7d`, a first pass turns
`$\x7bvariables.a\x7d` into `$\x7bvariables.b\x7d` and a second pass
resolves that to `B`. -/
theorem resolveValue_idempotence_counterexample :
    resolveValue (.str "$\x7bvariables.a\x7d")
        ⟨[("a", .str "$\x7bvariables.b\x7d"), ("b", .str "B")], []⟩ =
      .str "$\x7bvariables.b\x7d" ∧
    resolveValue (resolveValue (.str "$\x7bvariables.a\x7d")
        ⟨[("a", .str "$\x7bvariables.b\x7d"), ("b", .str "B")], []⟩)
        ⟨[("a", .str "$\x7bvariables.b\x7d"), ("b", .str "B")], []⟩ =
      .str "B" ∧
    ¬ ((JValue.str "B") = .str "$\x7bvariables.b\x7d") := by
  refine ⟨rfl, rfl, ?_⟩
  intro h
  exact absurd (JValue.str.inj h) (by decide)

/-- C4 (amended): the resolver is a pure deterministic function of
`(value, context)`, and it is idempotent on every context whose possible
replacements are inert — each resolvable path yields either a nonempty
replacement free of `$`, `\x7b`, `\x7d`, or the preserved literal.  (Full
idempotence fails: a replacement that itself contains a template is
resolved again by a second pass, as the counterexample shows.) -/
theorem resolveValue_idempotent :
    ∀ ctx : ResolverContext, CleanCtx ctx →
      ∀ v : JValue, resolveValue (resolveValue v ctx) ctx = resolveValue v ctx := by
  intro ctx H v
  exact resolveValue_idem_aux ctx H (sizeOf v) v le_rfl

theorem cleanCtx_concrete : CleanCtx ⟨[], [("A", .str "hello")]⟩ := by
  intro p
  unfold resolvePath
  split
  · next nodeId rest heq =>
      by_cases hA : ("A" : String) = nodeId
      · rw [show alookup ([("A", JValue.str "hello")] :
              List (String × JValue)) nodeId = some (.str "hello") from by
            simp [alookup, hA]]
        simp only [Option.getD_some]
        rw [if_neg (by decide)]
        cases rest with
        | nil =>
            rw [show walkPath (JValue.str "hello") [] = some (.str "hello") from rfl]
            left
            show CleanRepl "hello"
            exact ⟨by decide, by decide⟩
        | cons k ks =>
            rw [show walkPath (JValue.str "hello") (k :: ks) = none from by
              simp [walkPath, isObjectLike]]
            right
            rfl
      · rw [show alookup ([("A", JValue.str "hello")] :
              List (String × JValue)) nodeId = none from by
            simp [alookup, hA]]
        simp only [Option.getD_none]
        rw [if_pos (by decide)]
        right
        rfl
  · next name heq =>
      rw [show alookup ([] : List (String × JValue)) name = none from rfl]
      right
      rfl
  · right
    rfl

/-- Witness for C4 (amended): with outputs `\x7bA: "hello"\x7d` — an inert
context — a second resolution pass changes nothing. -/
theorem resolveValue_idempotent_witness :
    resolveValue (resolveValue (.str "x $\x7boutputs.A\x7d y")
        ⟨[], [("A", .str "hello")]⟩) ⟨[], [("A", .str "hello")]⟩ =
      resolveValue (.str "x $\x7boutputs.A\x7d y") ⟨[], [("A", .str "hello")]⟩ :=
  resolveValue_idempotent ⟨[], [("A", .str "hello")]⟩ cleanCtx_concrete
    (.str "x $\x7boutputs.A\x7d y")

/-! ### Specification-level traversal relation for C5

`Traverses base segs out` expresses the spec's words: the dotted segments
traverse the object (or array) tree by existing keys — a field of an
object, a canonical index or `length` of an array — ending at `out`. -/

inductive Traverses : JValue → List String → JValue → Prop where
  | nil (v : JValue) : Traverses v [] v
  | objStep (fs : List (String × JValue)) (k : String) (v out : JValue)
      (ks : List String) :
      alookup fs k = some v → Traverses v ks out →
      Traverses (.obj fs) (k :: ks) out
  | arrLength (xs : List JValue) (ks : List String) (out : JValue) :
      Traverses (.num xs.length) ks out →
      Traverses (.arr xs) ("length" :: ks) out
  | arrIndex (xs : List JValue) (k : String) (i : Nat) (v out : JValue)
      (ks : List String) :
      k ≠ "length" → canonicalIndex k = some i → xs.get? i = some v →
      Traverses v ks out → Traverses (.arr xs) (k :: ks) out

theorem walkPath_cons (base : JValue) (k : String) (ks : List String) :
    walkPath base (k :: ks) =
      if isObjectLike base = true then walkPath (getProp base k) ks else none := rfl

theorem walkPath_undef_eq (ks : List String) (r : JValue)
    (h : walkPath .undef ks = some r) : r = .undef := by
  cases ks with
  | nil => simpa [walkPath] using h.symm
  | cons k t => simp [walkPath_cons, isObjectLike] at h

theorem walkPath_obj_cons (fs : List (String × JValue)) (k : String)
    (ks : List String) :
    walkPath (.obj fs) (k :: ks) = walkPath ((alookup fs k).getD .undef) ks := by
  rw [walkPath_cons, if_pos]
  · rfl
  · rfl

theorem walkPath_arr_cons (xs : List JValue) (k : String) (ks : List String) :
    walkPath (.arr xs) (k :: ks) = walkPath (getProp (.arr xs) k) ks := by
  rw [walkPath_cons, if_pos]
  rfl

theorem walkPath_not_object (base : JValue) (hb : isObjectLike base = false)
    (k : String) (ks : List String) :
    walkPath base (k :: ks) = none := by
  rw [walkPath_cons, if_neg]
  simp [hb]

theorem getProp_arr_length (xs : List JValue) :
    getProp (.arr xs) "length" = .num xs.length := by
  simp [getProp]

theorem getProp_arr_index (xs : List JValue) (k : String) (i : Nat)
    (hk : k ≠ "length") (hci : canonicalIndex k = some i) :
    getProp (.arr xs) k = (xs.get? i).getD .undef := by
  simp [getProp, hk, hci]

theorem getProp_arr_badkey (xs : List JValue) (k : String)
    (hk : k ≠ "length") (hci : canonicalIndex k = none) :
    getProp (.arr xs) k = .undef := by
  simp [getProp, hk, hci]

theorem walkPath_iff_traverses :
    ∀ (path : List String) (base r : JValue), r.isUndef = false →
      (walkPath base path = some r ↔ Traverses base path r) := by
  intro path
  induction path with
  | nil =>
      intro base r hr
      constructor
      · intro h
        have hbr : base = r := by simpa [walkPath] using h
        subst hbr
        exact .nil base
      · intro h
        cases h
        rfl
  | cons k ks ih =>
      intro base r hr
      constructor
      · intro h
        cases base with
        | obj fs =>
            rw [walkPath_obj_cons] at h
            cases hal : alookup fs k with
            | some v =>
                rw [hal, Option.getD_some] at h
                exact .objStep fs k v r ks hal ((ih v r hr).mp h)
            | none =>
                rw [hal, Option.getD_none] at h
                have := walkPath_undef_eq ks r h
                subst this
                simp [JValue.isUndef] at hr
        | arr xs =>
            rw [walkPath_arr_cons] at h
            by_cases hk : k = "length"
            · subst hk
              rw [getProp_arr_length] at h
              exact .arrLength xs ks r ((ih _ r hr).mp h)
            · cases hci : canonicalIndex k with
              | some i =>
                  rw [getProp_arr_index xs k i hk hci] at h
                  cases hget : xs.get? i with
                  | some v =>
                      rw [hget, Option.getD_some] at h
                      exact .arrIndex xs k i v r ks hk hci hget ((ih v r hr).mp h)
                  | none =>
                      rw [hget, Option.getD_none] at h
                      have := walkPath_undef_eq ks r h
                      subst this
                      simp [JValue.isUndef] at hr
              | none =>
                  rw [getProp_arr_badkey xs k hk hci] at h
                  have := walkPath_undef_eq ks r h
                  subst this
                  simp [JValue.isUndef] at hr
        | str s =>
            rw [walkPath_not_object _ (by simp [isObjectLike]) k ks] at h
            exact absurd h (by simp)
        | num n =>
            rw [walkPath_not_object _ (by simp [isObjectLike]) k ks] at h
            exact absurd h (by simp)
        | bool b =>
            rw [walkPath_not_object _ (by simp [isObjectLike]) k ks] at h
            exact absurd h (by simp)
        | null =>
            rw [walkPath_not_object _ (by simp [isObjectLike]) k ks] at h
            exact absurd h (by simp)
        | undef =>
            rw [walkPath_not_object _ (by simp [isObjectLike]) k ks] at h
            exact absurd h (by simp)
      · intro h
        cases h with
        | objStep fs k v out ks hal ht =>
            rw [walkPath_obj_cons, hal, Option.getD_some]
            exact (ih v r hr).mpr ht
        | arrLength xs ks out ht =>
            rw [walkPath_arr_cons, getProp_arr_length]
            exact (ih _ r hr).mpr ht
        | arrIndex xs k i v out ks hk hci hget ht =>
            rw [walkPath_arr_cons, getProp_arr_index xs k i hk hci, hget,
                Option.getD_some]
            exact (ih v r hr).mpr ht

theorem resolvePath_outputs (ctx : ResolverContext) (p nodeId : String)
    (rest : List String) (hsp : jsSplit p '.' = "outputs" :: nodeId :: rest) :
    resolvePath p ctx =
      (if !((alookup ctx.outputs nodeId).getD .undef).truthy then templateLiteral p
       else
         match walkPath ((alookup ctx.outputs nodeId).getD .undef) rest with
         | some r => if r.isUndef then templateLiteral p else r.toJsString
         | none => templateLiteral p) := by
  unfold resolvePath
  split
  · next nodeId2 rest2 heq =>
      rw [hsp] at heq
      simp only [List.cons.injEq] at heq
      obtain ⟨_, h2, h3⟩ := heq
      subst h2
      subst h3
      rfl
  · next name heq =>
      rw [hsp] at heq
      simp at heq
  · next hno1 hno2 =>
      exact absurd hsp (by exact fun hc => hno1 nodeId rest hc)

theorem resolvePath_variables (ctx : ResolverContext) (p name : String)
    (hsp : jsSplit p '.' = ["variables", name]) :
    resolvePath p ctx =
      (match alookup ctx.vars name with
       | some v => if v.isUndef then templateLiteral p else v.toJsString
       | none => templateLiteral p) := by
  unfold resolvePath
  split
  · next nodeId2 rest2 heq =>
      rw [hsp] at heq
      simp at heq
  · next name2 heq =>
      rw [hsp] at heq
      simp only [List.cons.injEq] at heq
      obtain ⟨_, h2, _⟩ := heq
      subst h2
      rfl
  · next hno1 hno2 =>
      exact absurd hsp (by exact fun hc => hno2 name hc)

/-- C5 counterexample: with outputs `\x7bA: 0\x7d` the node output for `A`
EXISTS, yet `$\x7boutputs.A\x7d` is preserved verbatim instead of being
replaced by `String(0) = "0"`, because the code drops falsy outputs
(`if (!output) return match`). -/
theorem resolveValue_template_counterexample :
    alookup [("A", JValue.num 0)] "A" = some (.num 0) ∧
    resolveValue (.str "$\x7boutputs.A\x7d") ⟨[], [("A", .num 0)]⟩ =
      .str "$\x7boutputs.A\x7d" ∧
    ¬ (JValue.str "$\x7boutputs.A\x7d" = .str ((JValue.num 0).toJsString)) := by
  refine ⟨rfl, rfl, ?_⟩
  intro h
  exact absurd (JValue.str.inj h) (by decide)

/-- C5 (amended): template resolution semantics of the resolver.
Non-string scalars are returned unchanged; arrays and objects are
traversed element-wise with the container type preserved; a string that is
exactly one template `$\x7bpath\x7d` resolves to the replacer's result;
for `outputs.<nodeId>` paths the template is replaced by the default
string coercion of the value reached by traversing the object/array tree
by existing keys, provided the node output exists AND is truthy and the
traversal ends in a defined value — in every other case (absent or falsy
output, a segment hitting a non-object or missing key, an undefined
result) the original literal is preserved verbatim; `variables.<name>`
resolves when the variable is present and defined, else the literal is
preserved. -/
theorem resolveValue_template_semantics :
    ∀ ctx : ResolverContext,
      (∀ n : Int, resolveValue (.num n) ctx = .num n) ∧
      (∀ b : Bool, resolveValue (.bool b) ctx = .bool b) ∧
      (resolveValue .null ctx = .null) ∧
      (resolveValue .undef ctx = .undef) ∧
      (∀ xs, resolveValue (.arr xs) ctx =
        .arr (xs.map (fun x => resolveValue x ctx))) ∧
      (∀ fs, resolveValue (.obj fs) ctx =
        .obj (fs.map (fun q => (q.1, resolveValue q.2 ctx)))) ∧
      (∀ p : String, p.data ≠ [] → '\x7d' ∉ p.data →
        resolveValue (.str (templateLiteral p)) ctx = .str (resolvePath p ctx)) ∧
      (∀ (p nodeId : String) (rest : List String) (out v : JValue),
        jsSplit p '.' = "outputs" :: nodeId :: rest →
        alookup ctx.outputs nodeId = some out →
        out.truthy = true →
        v.isUndef = false →
        Traverses out rest v →
        resolvePath p ctx = v.toJsString) ∧
      (∀ (p nodeId : String) (rest : List String),
        jsSplit p '.' = "outputs" :: nodeId :: rest →
        (∀ out, alookup ctx.outputs nodeId = some out →
          out.truthy = true →
          ∀ v, Traverses out rest v → v.isUndef = true) →
        resolvePath p ctx = templateLiteral p) ∧
      (∀ (p name : String) (v : JValue),
        jsSplit p '.' = ["variables", name] →
        alookup ctx.vars name = some v → v.isUndef = false →
        resolvePath p ctx = v.toJsString) ∧
      (∀ (p name : String),
        jsSplit p '.' = ["variables", name] →
        (∀ v, alookup ctx.vars name = some v → v.isUndef = true) →
        resolvePath p ctx = templateLiteral p) := by
  intro ctx
  refine ⟨fun n => rfl, fun b => rfl, rfl, rfl, ?_, ?_, ?_, ?_, ?_, ?_, ?_⟩
  · intro xs
    rw [show resolveValue (.arr xs) ctx = .arr (resolveValueList xs ctx) from rfl,
        resolveValueList_map]
  · intro fs
    rw [show resolveValue (.obj fs) ctx = .obj (resolveValueObj fs ctx) from rfl,
        resolveValueObj_map]
  · intro p hne hnb
    show JValue.str (resolveString (templateLiteral p) ctx) = _
    refine congrArg JValue.str ?_
    rw [resolveString_data, templateLiteral_data,
        show p.data ++ ['\x7d'] = p.data ++ '\x7d' :: [] from rfl,
        scanL_template ctx (p.data ++ '\x7d' :: []) p.data []
          (splitAtBrace_append p.data [] hnb) hne]
    have hmk : String.mk p.data = p := by cases p; rfl
    rw [hmk]
    show String.mk ((resolvePath p ctx).data ++ []) = resolvePath p ctx
    rw [List.append_nil]
  · intro p nodeId rest out v hsp hal htr hv htrav
    have hw : walkPath out rest = some v :=
      (walkPath_iff_traverses rest out v hv).mpr htrav
    rw [resolvePath_outputs ctx p nodeId rest hsp, hal, Option.getD_some,
        if_neg (by simp [htr]), hw]
    show (if v.isUndef = true then templateLiteral p else v.toJsString) = _
    rw [if_neg (by simp [hv])]
  · intro p nodeId rest hsp hfail
    rw [resolvePath_outputs ctx p nodeId rest hsp]
    cases hal : alookup ctx.outputs nodeId with
    | none =>
        rw [Option.getD_none, if_pos (by decide)]
    | some out =>
        rw [Option.getD_some]
        by_cases htr : out.truthy = true
        · rw [if_neg (by simp [htr])]
          cases hw : walkPath out rest with
          | none => rfl
          | some r =>
              show (if r.isUndef = true then templateLiteral p else r.toJsString) = _
              by_cases hru : r.isUndef = true
              · rw [if_pos hru]
              · have hrf : r.isUndef = false := by
                  cases hx : r.isUndef
                  · rfl
                  · exact absurd hx hru
                have := hfail out hal htr r
                  ((walkPath_iff_traverses rest out r hrf).mp hw)
                rw [this] at hrf
                simp at hrf
        · rw [if_pos (by simp [htr])]
  · intro p name v hsp hal hv
    rw [resolvePath_variables ctx p name hsp, hal]
    show (if v.isUndef = true then templateLiteral p else v.toJsString) = _
    rw [if_neg (by simp [hv])]
  · intro p name hsp hfail
    rw [resolvePath_variables ctx p name hsp]
    cases hal : alookup ctx.vars name with
    | none => rfl
    | some v =>
        show (if v.isUndef = true then templateLiteral p else v.toJsString) = _
        rw [if_pos (hfail v hal)]

/-- Witness for C5 (amended): `outputs.A.text` with a truthy object output
resolves to the referenced string, and the whole-template string form
reduces through the replacer. -/
theorem resolveValue_template_semantics_witness :
    resolvePath "outputs.A.text" ⟨[], [("A", .obj [("text", .str "hi")])]⟩ =
      (JValue.str "hi").toJsString ∧
    resolveValue (.str (templateLiteral "outputs.A.text"))
        ⟨[], [("A", .obj [("text", .str "hi")])]⟩ =
      .str (resolvePath "outputs.A.text"
        ⟨[], [("A", .obj [("text", .str "hi")])]⟩) := by
  have h := resolveValue_template_semantics ⟨[], [("A", .obj [("text", .str "hi")])]⟩
  refine ⟨?_, ?_⟩
  · refine h.2.2.2.2.2.2.2.1 "outputs.A.text" "A" ["text"]
      (.obj [("text", .str "hi")]) (.str "hi") (by decide) rfl (by decide)
      (by decide) ?_
    exact Traverses.objStep [("text", .str "hi")] "text" (.str "hi") (.str "hi")
      [] rfl (Traverses.nil _)
  · exact h.2.2.2.2.2.2.1 "outputs.A.text" (by decide) (by decide)
